import Mathlib

/-!
Shallow embedding of the History & Job Reconciliation Engine of the
zkBob client library (`HistoryStorage` and its helpers in `history.ts`).

Conventions of the embedding:
* JavaScript `Map`s are association lists whose `set` replaces the first
  matching key in place (insertion order preserved, as JS `Map` does).
* `bigint` is `Int`; tree indexes are `Nat` (JS numbers used as keys);
  the in-memory `syncIndex` is an `Int` because the code initialises it
  to `-1`.
* Asynchronous methods are pure functions; `Promise` plumbing and the
  single-flight guard are concurrency aspects that are not modelled.
* Fallible paths (`throw new InternalError(...)`) are `Except String`.
* Remote collaborators (subgraph, RPC node, cryptographic state) are
  parameters gathered in an environment record, so one run of the
  reconciler is a pure function of the environment and the state.
-/

namespace ZkBob

/-- External decrypted-account type (`libzkbob-rs-wasm-web`).  The
reconciler only inspects its presence, never its fields, so it is kept
opaque with a single placeholder field. -/
structure Account where
  id : Nat
  deriving DecidableEq, Repr

/-- External note type: diversifier `d`, receiver key `p_d`, balance `b`. -/
structure Note where
  d : Nat
  p_d : Nat
  b : Int
  deriving DecidableEq, Repr

/-- An in/out note entry of a decrypted memo: `{ note, index }`. -/
structure NoteAt where
  note : Note
  index : Nat
  deriving DecidableEq, Repr

/-- `DecryptedMemo` from `history.ts`: a locally decrypted fragment at a
tree index.  `txHash` is `undefined` until known, hence `Option`. -/
structure DecryptedMemo where
  index : Nat
  acc : Option Account
  inNotes : List NoteAt
  outNotes : List NoteAt
  txHash : Option String
  deriving DecidableEq, Repr

/-- `HistoryTransactionType` enum from `history.ts`. -/
inductive HistoryTransactionType where
  | Deposit
  | TransferIn
  | TransferOut
  | Withdrawal
  | AggregateNotes
  | DirectDeposit
  deriving DecidableEq, Repr

/-- `HistoryRecordState` enum from `history.ts`. -/
inductive HistoryRecordState where
  | Pending
  | Mined
  | RejectedByRelayer
  | RejectedByPool
  deriving DecidableEq, Repr

/-- `TokensMoving` from `history.ts`.  `from` and `to` are Lean keywords,
so the fields are called `from_` and `to_`. -/
structure TokensMoving where
  from_ : String
  to_ : String
  amount : Int
  ddFee : Option Int
  isLoopback : Bool
  deriving DecidableEq, Repr

/-- `HistoryRecord` from `history.ts` (the `extraInfo : any` field, an
opaque passthrough never read by the engine, is not modelled). -/
structure HistoryRecord where
  type : HistoryTransactionType
  commitment : Int
  timestamp : Nat
  actions : List TokensMoving
  fee : Int
  txHash : String
  state : HistoryRecordState
  failureReason : Option String
  deriving DecidableEq, Repr

/-- `HistoryRecord.deposit` static constructor. -/
def HistoryRecord.deposit (from_ : String) (amount fee : Int) (ts : Nat)
    (txHash : String) (pending : Bool) (commitment : Option Int) : HistoryRecord :=
  { type := .Deposit
    commitment := commitment.getD 0
    timestamp := ts
    actions := [{ from_ := from_, to_ := "", amount := amount, ddFee := none, isLoopback := false }]
    fee := fee
    txHash := txHash
    state := if pending then .Pending else .Mined
    failureReason := none }

/-- `HistoryRecord.transferIn` static constructor; a transfer entry is a
`(to, amount)` pair. -/
def HistoryRecord.transferIn (transfers : List (String × Int)) (fee : Int) (ts : Nat)
    (txHash : String) (pending : Bool) (commitment : Option Int) : HistoryRecord :=
  { type := .TransferIn
    commitment := commitment.getD 0
    timestamp := ts
    actions := transfers.map (fun t => { from_ := "", to_ := t.1, amount := t.2, ddFee := none, isLoopback := false })
    fee := fee
    txHash := txHash
    state := if pending then .Pending else .Mined
    failureReason := none }

/-- `HistoryRecord.transferOut` static constructor; `getIsLoopback` is the
address-ownership callback. -/
def HistoryRecord.transferOut (transfers : List (String × Int)) (fee : Int) (ts : Nat)
    (txHash : String) (pending : Bool) (getIsLoopback : String → Bool)
    (commitment : Option Int) : HistoryRecord :=
  { type := .TransferOut
    commitment := commitment.getD 0
    timestamp := ts
    actions := transfers.map (fun t => { from_ := "", to_ := t.1, amount := t.2, ddFee := none, isLoopback := getIsLoopback t.1 })
    fee := fee
    txHash := txHash
    state := if pending then .Pending else .Mined
    failureReason := none }

/-- `HistoryRecord.withdraw` static constructor. -/
def HistoryRecord.withdraw (to_ : String) (amount fee : Int) (ts : Nat)
    (txHash : String) (pending : Bool) (commitment : Option Int) : HistoryRecord :=
  { type := .Withdrawal
    commitment := commitment.getD 0
    timestamp := ts
    actions := [{ from_ := "", to_ := to_, amount := amount, ddFee := none, isLoopback := false }]
    fee := fee
    txHash := txHash
    state := if pending then .Pending else .Mined
    failureReason := none }

/-- `HistoryRecord.aggregateNotes` static constructor (fee-only self
transfer, no actions). -/
def HistoryRecord.aggregateNotes (fee : Int) (ts : Nat) (txHash : String)
    (pending : Bool) (commitment : Option Int) : HistoryRecord :=
  { type := .AggregateNotes
    commitment := commitment.getD 0
    timestamp := ts
    actions := []
    fee := fee
    txHash := txHash
    state := if pending then .Pending else .Mined
    failureReason := none }

/-- `HistoryRecord.directDeposit` static constructor (commitment fixed to 0). -/
def HistoryRecord.directDeposit (from_ to_ : String) (amount fee : Int) (ts : Nat)
    (txHash : String) (pending : Bool) : HistoryRecord :=
  { type := .DirectDeposit
    commitment := 0
    timestamp := ts
    actions := [{ from_ := from_, to_ := to_, amount := amount, ddFee := none, isLoopback := false }]
    fee := fee
    txHash := txHash
    state := if pending then .Pending else .Mined
    failureReason := none }

/-- `HistoryRecordIdx`: a history record together with its tree index. -/
structure HistoryRecordIdx where
  index : Nat
  record : HistoryRecord
  deriving DecidableEq, Repr

/-- `RegularTxType` from `tx.ts`. -/
inductive RegularTxType where
  | Deposit
  | BridgeDeposit
  | Transfer
  | Withdraw
  deriving DecidableEq, Repr

/-- `RegularTxDetails` from `tx.ts` (the fields read by the reconciler;
`commitment` is kept as the `Int` the code obtains via `BigInt(...)`). -/
structure RegularTxDetails where
  txType : RegularTxType
  txHash : String
  timestamp : Nat
  tokenAmount : Int
  feeAmount : Int
  depositAddr : Option String
  withdrawAddr : Option String
  commitment : Int
  deriving DecidableEq, Repr

/-- One entry of a direct-deposit batch (`deposits` element of
`DDBatchTxDetails`); missing senders are the empty string, as in the
JS falsy check `aDeposit.sender && aDeposit.sender != ''`. -/
structure DirectDepositEntry where
  sender : String
  fallback : String
  destination : String
  amount : Int
  fee : Int
  deriving DecidableEq, Repr

/-- `DDBatchTxDetails` from `tx.ts`. -/
structure DDBatchTxDetails where
  txHash : String
  timestamp : Nat
  deposits : List DirectDepositEntry
  deriving DecidableEq, Repr

/-- `PoolTxType` from `tx.ts`. -/
inductive PoolTxType where
  | Regular
  | DirectDepositBatch
  deriving DecidableEq, Repr

/-- The dynamically-typed `details` payload: the code discriminates with
`instanceof RegularTxDetails` / `instanceof DDBatchTxDetails`. -/
inductive TxDetails where
  | regular (d : RegularTxDetails)
  | dd (d : DDBatchTxDetails)
  deriving DecidableEq, Repr

/-- `details.txHash`, available on both payload shapes. -/
def TxDetails.txHash : TxDetails → String
  | .regular d => d.txHash
  | .dd d => d.txHash

/-- `PoolTxDetails` from `tx.ts`: type tag, tree index and payload. -/
structure PoolTxDetails where
  poolTxType : PoolTxType
  index : Nat
  details : TxDetails
  deriving DecidableEq, Repr

/-- The `ZkBobState` collaborators the reconciler consumes (address
assembly and ownership testing), as pure functions. -/
structure StateEnv where
  assembleAddress : Nat → Nat → String
  isOwnAddress : String → Bool

/-- The remote collaborators of one reconciliation pass: the optional
subgraph batch query and the per-transaction RPC fallback
`network.getTxDetails(index, txHash)`. -/
structure Env where
  subgraph : Option (List Nat → List PoolTxDetails)
  getTxDetails : Nat → String → Option PoolTxDetails
  state : StateEnv

/-- JS `Map.set`: replace the first binding of the key in place, else
append (JS maps keep insertion order). -/
def mapSet {κ α : Type} [BEq κ] : List (κ × α) → κ → α → List (κ × α)
  | [], k, v => [(k, v)]
  | e :: rest, k, v => if e.1 == k then (k, v) :: rest else e :: mapSet rest k v

/-- JS `Map.delete`: drop the bindings of the key. -/
def mapDelete {κ α : Type} [BEq κ] (m : List (κ × α)) (k : κ) : List (κ × α) :=
  m.filter (fun e => !(e.1 == k))

/-- `removeDuplicates` from `utils.ts`: keep the first occurrence of each
element. -/
def removeDuplicates {α : Type} [BEq α] (array : List α) : List α :=
  array.foldl (fun acc cur => if acc.contains cur then acc else acc ++ [cur]) []

/-- The whole `HistoryStorage` object: the in-memory caches and the
durable IndexedDB tables (`db*` fields).  `dbSyncIndex`/`dbFailIndexes`
are the `sync_index` / `fail_indexes` keys of `HISTORY_STATE_TABLE`
(`none` = key absent). -/
structure HistoryStorage where
  syncIndex : Int
  queuedTxs : List (String × List HistoryRecord)
  sentTxs : List (String × List HistoryRecord)
  unparsedMemo : List (Nat × DecryptedMemo)
  unparsedPendingMemo : List (Nat × DecryptedMemo)
  currentHistory : List (Nat × HistoryRecord)
  failedHistory : List HistoryRecord
  pendingLocalHistory : List HistoryRecord
  dbTx : List (Nat × HistoryRecord)
  dbFailedTx : List HistoryRecord
  dbMemo : List (Nat × DecryptedMemo)
  dbPendingMemo : List (Nat × DecryptedMemo)
  dbNativeTx : List (Nat × String)
  dbSyncIndex : Option Int
  dbFailIndexes : Option (List Nat)
  deriving DecidableEq, Repr

/-- A freshly initialised storage (constructor state: `syncIndex = -1`,
all maps and tables empty). -/
def emptyStorage : HistoryStorage :=
  { syncIndex := -1
    queuedTxs := []
    sentTxs := []
    unparsedMemo := []
    unparsedPendingMemo := []
    currentHistory := []
    failedHistory := []
    pendingLocalHistory := []
    dbTx := []
    dbFailedTx := []
    dbMemo := []
    dbPendingMemo := []
    dbNativeTx := []
    dbSyncIndex := none
    dbFailIndexes := none }

/-- `CONSTANTS.OUTLOG` comes from the `constants` module, which is not
among the provided sources; it is the log2 of the number of tree leaves a
transaction occupies (7 in the deployed protocol).  The statements below
do not depend on its value. -/
def OUTLOG : Nat := 7

/-- The JS key computation `index & ((-1) << CONSTANTS.OUTLOG)`: both
operands are converted to 32-bit integers, and `(-1) << OUTLOG` has the
unsigned 32-bit pattern `2^32 - 2^OUTLOG`, so for tree indexes
`0 ≤ index < 2^31` the JS expression equals this bitwise AND on `Nat`. -/
def alignedMemoIndex (index : Nat) : Nat :=
  index &&& (2 ^ 32 - 2 ^ OUTLOG)

/-- A value read back from an IndexedDB object store: the stored value,
or `undefined` when the key is absent (IndexedDB's `get` resolves with
`undefined`, never `null`, for a missing key).  `nullVal` exists so the
code's literal `=== null` comparison can be embedded honestly. -/
inductive JsDbVal where
  | undefinedVal
  | nullVal
  | val (m : DecryptedMemo)
  deriving DecidableEq, Repr

/-- `db.get` on a memo table. -/
def dbGetMemo (tbl : List (Nat × DecryptedMemo)) (k : Nat) : JsDbVal :=
  match tbl.lookup k with
  | some m => .val m
  | none => .undefinedVal

/-- `HistoryStorage.saveDecryptedMemo`. -/
def HistoryStorage.saveDecryptedMemo (st : HistoryStorage) (memo : DecryptedMemo)
    (pending : Bool) : HistoryStorage :=
  let memoIndex := alignedMemoIndex memo.index
  if pending then
    { st with
      unparsedPendingMemo := mapSet st.unparsedPendingMemo memoIndex memo
      dbPendingMemo := mapSet st.dbPendingMemo memoIndex memo }
  else
    let st1 :=
      if (memo.index : Int) > st.syncIndex then
        { st with unparsedMemo := mapSet st.unparsedMemo memoIndex memo }
      else st
    { st1 with dbMemo := mapSet st1.dbMemo memoIndex memo }

/-- `HistoryStorage.getDecryptedMemo`: reads the mined table, and falls
back to the pending table only when the first read produced exactly
`null` (the code's `memo === null` test). -/
def HistoryStorage.getDecryptedMemo (st : HistoryStorage) (index : Nat)
    (allowPending : Bool) : Option DecryptedMemo :=
  let memoIndex := alignedMemoIndex index
  let memo := dbGetMemo st.dbMemo memoIndex
  let memo2 :=
    match memo, allowPending with
    | .nullVal, true => dbGetMemo st.dbPendingMemo memoIndex
    | m, _ => m
  match memo2 with
  | .val m => some m
  | _ => none

/-- `HistoryStorage.cleanIndexes`. -/
def HistoryStorage.cleanIndexes (st : HistoryStorage) : HistoryStorage :=
  { st with dbSyncIndex := none, dbFailIndexes := none, syncIndex := -1 }

/-- `HistoryStorage.cleanHistory`: clears the five durable tables, the
sync scalars, and four of the in-memory caches.  (`queuedTxs`, `sentTxs`
and `pendingLocalHistory` are not touched by the source.) -/
def HistoryStorage.cleanHistory (st : HistoryStorage) : HistoryStorage :=
  let st1 :=
    { st with
      dbTx := []
      dbFailedTx := []
      dbMemo := []
      dbPendingMemo := []
      dbNativeTx := [] }
  let st2 := st1.cleanIndexes
  { st2 with
    unparsedMemo := []
    unparsedPendingMemo := []
    currentHistory := []
    failedHistory := [] }

/-- `HistoryStorage.setTxHashForQueuedTransactions(job, txHash)`: the job
is identified by its `job.hash()` string.  The records are shared
references in the source, so assigning `aRec.txHash` updates the entry
inside `queuedTxs` as well; then the updated records are stored in
`sentTxs` under the new hash. -/
def HistoryStorage.setTxHashForQueuedTransactions (st : HistoryStorage)
    (jobHash txHash : String) : HistoryStorage :=
  match st.queuedTxs.lookup jobHash with
  | none => st
  | some records =>
    let sentHistoryRecords := records.map (fun aRec => { aRec with txHash := txHash })
    { st with
      queuedTxs := mapSet st.queuedTxs jobHash sentHistoryRecords
      sentTxs := mapSet st.sentTxs txHash sentHistoryRecords }

/-- `removePendingTxByCommit(commitment)`: drop every `sentTxs` and
`queuedTxs` entry one of whose records carries the commitment. -/
def HistoryStorage.removePendingTxByCommit (st : HistoryStorage) (commitment : Int) :
    HistoryStorage :=
  { st with
    sentTxs := st.sentTxs.filter (fun e => !(e.2.any (fun r => r.commitment == commitment)))
    queuedTxs := st.queuedTxs.filter (fun e => !(e.2.any (fun r => r.commitment == commitment))) }

/-- `HistoryStorage.setQueuedTransactionsCompleted` merely forwards to
`setTxHashForQueuedTransactions` (the source comment: do not remove the
associated records; they are removed later, on history sync). -/
def HistoryStorage.setQueuedTransactionsCompleted (st : HistoryStorage)
    (jobHash txHash : String) : HistoryStorage :=
  st.setTxHashForQueuedTransactions jobHash txHash

end ZkBob

namespace ZkBob

/-- Result record of `HistoryStorage.getTxesDetails`. -/
structure TxsDetailsResult where
  details : List PoolTxDetails
  fetched : List Nat
  notFetched : List Nat
  needResync : List Nat
  deriving DecidableEq, Repr

/-- Whether a memo correlates with fetched details:
`aMemo.index == txDetails.index || aMemo.txHash == txDetails.details.txHash`
(the second disjunct is false when the memo has no hash, as the JS
comparison with `undefined` is). -/
def memoMatches (aMemo : DecryptedMemo) (txDetails : PoolTxDetails) : Bool :=
  aMemo.index == txDetails.index ||
    (match aMemo.txHash with
     | some h => h == txDetails.details.txHash
     | none => false)

/-- The subgraph batch response (`fetchedTxs` before the RPC fallback):
empty when no subgraph is configured. -/
def subgraphTxs (env : Env) (memos : List DecryptedMemo) : List PoolTxDetails :=
  match env.subgraph with
  | some sg => sg (memos.map (fun m => m.index))
  | none => []

/-- `fetchedIndexesByTxHashes`: memo indexes correlated with a subgraph
response by transaction hash alone (the direct-deposit-batch "magic"). -/
def fetchedIndexesByTxHashes (env : Env) (memos : List DecryptedMemo) : List Nat :=
  (memos.filter (fun m =>
    (match m.txHash with
     | some h => ((subgraphTxs env memos).map (fun tx => tx.details.txHash)).contains h
     | none => false) &&
      !(((subgraphTxs env memos).map (fun tx => tx.index)).contains m.index))).map
    (fun m => m.index)

/-- `fetchedIndexes` after the subgraph phase. -/
def fetchedPreRpc (env : Env) (memos : List DecryptedMemo) : List Nat :=
  removeDuplicates
    ((subgraphTxs env memos).map (fun tx => tx.index) ++ fetchedIndexesByTxHashes env memos)

/-- `resFromRpc`: the per-transaction RPC fallback, issued only for
memos (with a known hash) the subgraph phase did not resolve; `null`
responses are dropped. -/
def resFromRpc (env : Env) (memos : List DecryptedMemo) : List PoolTxDetails :=
  (memos.filter (fun m => !((fetchedPreRpc env memos).contains m.index))).filterMap
    (fun m =>
      match m.txHash with
      | some h => env.getTxDetails m.index h
      | none => none)

/-- `HistoryStorage.getTxesDetails`: batch-resolve the memo indexes via
the subgraph when available, correlate leftover direct-deposit batches by
transaction hash, then fall back to per-transaction RPC queries; a
direct-deposit batch resolved through the fallback while a subgraph is
configured is additionally tagged needs-resync.  (The source's local
`let`s are the named definitions above.) -/
def getTxesDetails (env : Env) (memos : List DecryptedMemo) : TxsDetailsResult :=
  let fetchedTxs := subgraphTxs env memos ++ resFromRpc env memos
  let fetchedIndexes :=
    fetchedPreRpc env memos ++ (resFromRpc env memos).map (fun tx => tx.index)
  let fetchedIncompletely :=
    (resFromRpc env memos).filterMap (fun tx =>
      if tx.poolTxType == PoolTxType.DirectDepositBatch && env.subgraph.isSome then
        some tx.index
      else none)
  let notFetchedIndexes :=
    (memos.map (fun m => m.index)).filter (fun i => !(fetchedIndexes.contains i))
  { details := fetchedTxs
    fetched := fetchedIndexes
    notFetched := notFetchedIndexes
    needResync := fetchedIncompletely }

/-- The records produced for one fetched `txDetails` inside
`convertToHistory`'s main loop (the conversion-by-kind `switch`).  The
state is untouched here; the `removePendingTxByCommit` side effect is
applied by `convertTxDetails` below. -/
def convertTxDetailsRecords (env : Env) (pending : Bool) (memos : List DecryptedMemo)
    (txDetails : PoolTxDetails) : Except String (List HistoryRecordIdx) :=
  match memos.find? (fun m => memoMatches m txDetails) with
  | none => .error "Could not find associated memo for txDetails"
  | some memo =>
    match txDetails.poolTxType, txDetails.details with
    | .Regular, .regular details =>
      match details.txType with
      | .Deposit | .BridgeDeposit =>
        .ok [{ index := txDetails.index
               record := HistoryRecord.deposit (details.depositAddr.getD "")
                           details.tokenAmount details.feeAmount details.timestamp
                           details.txHash pending (some details.commitment) }]
      | .Transfer =>
        match memo.acc with
        | some _ =>
          let transfers := memo.outNotes.map (fun n =>
            (env.state.assembleAddress n.note.d n.note.p_d, n.note.b))
          if transfers.length == 0 then
            .ok [{ index := memo.index
                   record := HistoryRecord.aggregateNotes details.feeAmount
                               details.timestamp details.txHash pending none }]
          else
            .ok [{ index := memo.index
                   record := HistoryRecord.transferOut transfers details.feeAmount
                               details.timestamp details.txHash pending
                               env.state.isOwnAddress (some details.commitment) }]
        | none =>
          let transfers := memo.inNotes.map (fun n =>
            (env.state.assembleAddress n.note.d n.note.p_d, n.note.b))
          .ok [{ index := memo.index
                 record := HistoryRecord.transferIn transfers 0 details.timestamp
                             details.txHash pending none }]
      | .Withdraw =>
        .ok [{ index := memo.index
               record := HistoryRecord.withdraw (details.withdrawAddr.getD "")
                           (-(details.tokenAmount + details.feeAmount)) details.feeAmount
                           details.timestamp details.txHash pending
                           (some details.commitment) }]
    | .DirectDepositBatch, .dd details =>
      .ok ((details.deposits.enum).map (fun e =>
        { index := memo.index + e.1
          record := HistoryRecord.directDeposit
                      (if e.2.sender != "" then e.2.sender else e.2.fallback)
                      e.2.destination e.2.amount e.2.fee details.timestamp
                      details.txHash pending }))
    | _, _ => .error "Incorrect or unsupported transaction details"

/-- One iteration of `convertToHistory`'s main loop: produce the records
for the fetched details and, for a non-pending regular transaction,
remove the matching speculative entries from the aux queues
(`removePendingTxByCommit`). -/
def convertTxDetails (env : Env) (st : HistoryStorage) (pending : Bool)
    (memos : List DecryptedMemo) (txDetails : PoolTxDetails) :
    Except String (List HistoryRecordIdx × HistoryStorage) :=
  match convertTxDetailsRecords env pending memos txDetails with
  | .error e => .error e
  | .ok recs =>
    let st1 :=
      match txDetails.poolTxType, txDetails.details with
      | .Regular, .regular details =>
        if !pending then st.removePendingTxByCommit details.commitment else st
      | _, _ => st
    .ok (recs, st1)

/-- The `for (let txDetails of txesDetails)` loop of `convertToHistory`,
accumulating `allRecords` and threading the storage through the
side-effecting queue cleanup. -/
def convertFetchedLoop (env : Env) (pending : Bool) (memos : List DecryptedMemo) :
    HistoryStorage → List PoolTxDetails → List HistoryRecordIdx →
    Except String (List HistoryRecordIdx × HistoryStorage)
  | st, [], acc => .ok (acc, st)
  | st, tx :: rest, acc =>
    match convertTxDetails env st pending memos tx with
    | .error e => .error e
    | .ok (recs, st1) => convertFetchedLoop env pending memos st1 rest (acc ++ recs)

end ZkBob

namespace ZkBob

/-- Result record of `HistoryStorage.convertToHistory`. -/
structure ConvResult where
  records : List HistoryRecordIdx
  succIdxs : List Nat
  failIdxs : List Nat
  resyncIdxs : List Nat
  deriving DecidableEq, Repr

/-- The `for (let aUnprocessedIdx of notFetched)` loop of
`convertToHistory`.  The source iterates the `notFetched` array while
`splice`-ing elements out of it, so the embedding carries the live array
`arr` together with the iterator position `k`: one step reads `arr[k]`,
possibly erases the first occurrence of the memo index (the `indexOf` /
`splice(x, 1)` pair, executed on the first `forEach` iteration only), and
advances to `k+1`.  `fuel` only bounds the recursion; it is initialised
to `arr.length`, which the step discipline (each step increases `k`)
never exhausts before `k ≥ arr.length`. -/
def processNotFetchedLoop (sentTxs : List (String × List HistoryRecord))
    (memos : List DecryptedMemo) :
    Nat → List Nat → Nat → List Nat → List HistoryRecordIdx →
    Except String (List HistoryRecordIdx × List Nat × List Nat)
  | 0, arr, _, fetched, acc => .ok (acc, fetched, arr)
  | fuel + 1, arr, k, fetched, acc =>
    match arr[k]? with
    | none => .ok (acc, fetched, arr)
    | some aUnprocessedIdx =>
      match memos.find? (fun m => m.index == aUnprocessedIdx) with
      | none => .error "Could not find associated memo for unprocessed index"
      | some memo =>
        match memo.txHash with
        | none => .error "Cannot find txHash for memo"
        | some h =>
          match sentTxs.lookup h with
          | none =>
            -- soft path: warn and retry the next time
            processNotFetchedLoop sentTxs memos fuel arr (k + 1) fetched acc
          | some records =>
            let newRecs := (records.enum).map (fun e =>
              { index := memo.index + e.1, record := e.2 : HistoryRecordIdx })
            let fetched1 :=
              if records.isEmpty then fetched
              else if fetched.contains memo.index then fetched
              else fetched ++ [memo.index]
            let arr1 := if records.isEmpty then arr else arr.erase memo.index
            processNotFetchedLoop sentTxs memos fuel arr1 (k + 1) fetched1 (acc ++ newRecs)

/-- `HistoryStorage.convertToHistory(memos, pending)`: fetch the details,
convert every fetched transaction, then try to substitute locally-known
sent records for the unfetched ones.  Returns the produced records and
the fetched / unfetched / needs-resync index classification. -/
def HistoryStorage.convertToHistory (env : Env) (st : HistoryStorage)
    (memos : List DecryptedMemo) (pending : Bool) :
    Except String (HistoryStorage × ConvResult) :=
  let result := getTxesDetails env memos
  match convertFetchedLoop env pending memos st result.details [] with
  | .error e => .error e
  | .ok (recs1, st1) =>
    match processNotFetchedLoop st1.sentTxs memos result.notFetched.length
        result.notFetched 0 result.fetched recs1 with
    | .error e => .error e
    | .ok (allRecords, fetched, notFetched) =>
      .ok (st1, { records := allRecords
                  succIdxs := fetched
                  failIdxs := notFetched
                  resyncIdxs := result.needResync })

/-- The commit phase of `syncHistory` once both conversions returned
(the code after `Promise.all`): drop the live `Pending` records, apply
the new records (persisting the `Mined` ones and advancing
`newSyncIndex` to each `Mined` record's index in list order), persist the
unprocessed ++ needs-resync indexes as `fail_indexes`, drop converted
memos from the unparsed cache, and take `max` with the previous sync
index.  Returns the updated storage without the trailing
`pendingLocalHistory` recomputation (see `syncHistory`). -/
def syncCommit (st : HistoryStorage) (minedHistory pendingHistory : ConvResult) :
    HistoryStorage :=
  let historyRecords := minedHistory.records ++ pendingHistory.records
  let processedIndexes := minedHistory.succIdxs ++ pendingHistory.succIdxs
  let unprocessedIndexes := minedHistory.failIdxs ++ pendingHistory.failIdxs
  let needToResyncIndexes := minedHistory.resyncIdxs ++ pendingHistory.resyncIdxs
  let currentHistory0 := st.currentHistory.filter (fun e => !(e.2.state == HistoryRecordState.Pending))
  let applied := historyRecords.foldl
    (fun (acc : List (Nat × HistoryRecord) × List (Nat × HistoryRecord) × Int) oneRec =>
      let cur := mapSet acc.1 oneRec.index oneRec.record
      if oneRec.record.state == HistoryRecordState.Mined then
        (cur, mapSet acc.2.1 oneRec.index oneRec.record, (oneRec.index : Int))
      else
        (cur, acc.2.1, acc.2.2))
    (currentHistory0, st.dbTx, st.syncIndex)
  let unparsedMemo1 := processedIndexes.foldl
    (fun m oneIndex =>
      if needToResyncIndexes.contains oneIndex then m else mapDelete m oneIndex)
    st.unparsedMemo
  let syncIndex1 := max st.syncIndex applied.2.2
  { st with
    currentHistory := applied.1
    dbTx := applied.2.1
    dbFailIndexes := some (unprocessedIndexes ++ needToResyncIndexes)
    unparsedMemo := unparsedMemo1
    syncIndex := syncIndex1
    dbSyncIndex := some syncIndex1 }

/-- The trailing recomputation of `pendingLocalHistory` in `syncHistory`:
locally sent records whose commitment has not appeared in the live
history yet. -/
def recomputePendingLocal (st : HistoryStorage) : HistoryStorage :=
  let commitments := st.currentHistory.map (fun e => e.2.commitment)
  { st with
    pendingLocalHistory :=
      st.sentTxs.foldl
        (fun acc e => acc ++ e.2.filter (fun r => !(commitments.contains r.commitment)))
        [] }

/-- `HistoryStorage.syncHistory`: one reconciliation pass.  The two
`convertToHistory` calls run under one `Promise.all` in the source; the
embedding sequences the mined conversion before the pending one (their
only interaction is through the aux queues).  Returns the updated
storage and `unparsedMemo.size == 0`. -/
def HistoryStorage.syncHistory (env : Env) (st : HistoryStorage) :
    Except String (HistoryStorage × Bool) :=
  if st.unparsedMemo.isEmpty && st.unparsedPendingMemo.isEmpty then
    -- no new or pending memos: just drop the live pending records
    let st1 := { st with
      currentHistory := st.currentHistory.filter (fun e => !(e.2.state == HistoryRecordState.Pending)) }
    let st2 := recomputePendingLocal st1
    .ok (st2, st2.unparsedMemo.isEmpty)
  else
    match st.convertToHistory env (st.unparsedMemo.map (fun e => e.2)) false with
    | .error e => .error e
    | .ok (st1, minedHistory) =>
      match st1.convertToHistory env (st.unparsedPendingMemo.map (fun e => e.2)) true with
      | .error e => .error e
      | .ok (st2, pendingHistory) =>
        let st3 := syncCommit st2 minedHistory pendingHistory
        let st4 := recomputePendingLocal st3
        .ok (st4, st4.unparsedMemo.isEmpty)

/-- `MAX_SYNC_ATTEMPTS` from `history.ts`. -/
def MAX_SYNC_ATTEMPTS : Nat := 3

end ZkBob

namespace ZkBob

/-- The JS sort comparator of `getAllHistory`:
`(rec1, rec2) => 0 - (rec1.timestamp > rec2.timestamp ? -1 : 1)`.
`tsSortBefore r1 r2` says the comparator is `≤ 0`, i.e. `r1` may be
placed before `r2`. -/
def tsSortBefore (rec1 rec2 : HistoryRecord) : Bool :=
  decide ((0 - (if rec2.timestamp < rec1.timestamp then (-1 : Int) else 1)) ≤ 0)

/-- Stable insertion step for the sort model. -/
def sortInsert (a : HistoryRecord) : List HistoryRecord → List HistoryRecord
  | [] => [a]
  | b :: l => if tsSortBefore a b then a :: b :: l else b :: sortInsert a l

/-- Model of `Array.prototype.sort` with the comparator above: a stable
comparison sort (JS engines implement a stable sort; with this
comparator any comparison sort yields a list ordered by the
`tsSortBefore` relation). -/
def jsSortByTimestamp (l : List HistoryRecord) : List HistoryRecord :=
  l.foldr sortInsert []

/-- The merged view `getAllHistory` returns once the sync loop is done:
confirmed (`currentHistory` values) ++ failed ++ speculative, run through
the JS sort. -/
def HistoryStorage.historyView (st : HistoryStorage) : List HistoryRecord :=
  jsSortByTimestamp
    ((st.currentHistory.map (fun e => e.2)) ++ st.failedHistory ++ st.pendingLocalHistory)

/-- The `do { ... } while (this.syncAttempts < MAX_SYNC_ATTEMPTS)` retry
loop inside `getAllHistory`, parameterised by the per-attempt remote
environment.  Returns the final storage, whether the last pass reported
full success, and the number of passes executed (`syncAttempts`).  A
thrown logical error is swallowed by the promise `.catch` in the source;
the embedding stops the loop there (that path is outside every statement
below, which all run on the soft-failure path).  `fuel` is initialised to
`MAX_SYNC_ATTEMPTS` and never runs out before the attempt guard stops
the loop. -/
def syncHistoryLoop (envs : Nat → Env) :
    Nat → HistoryStorage → Nat → HistoryStorage × Bool × Nat
  | fuel, st, syncAttempts =>
    let attempts1 := syncAttempts + 1
    match st.syncHistory (envs syncAttempts) with
    | .error _ => (st, false, attempts1)
    | .ok (st1, result) =>
      if result then (st1, true, attempts1)
      else
        match fuel with
        | 0 => (st1, false, attempts1)
        | fuel1 + 1 =>
          if attempts1 < MAX_SYNC_ATTEMPTS then syncHistoryLoop envs fuel1 st1 attempts1
          else (st1, false, attempts1)

/-- `HistoryStorage.getAllHistory`: run the bounded retry loop, then
return the merged, sorted view (together with the final storage and the
number of passes, which the statements below inspect). -/
def HistoryStorage.getAllHistory (envs : Nat → Env) (st : HistoryStorage) :
    List HistoryRecord × HistoryStorage × Nat :=
  let r := syncHistoryLoop envs MAX_SYNC_ATTEMPTS st 0
  (r.1.historyView, r.1, r.2.2)

/-- `HistoryStorage.rollbackHistory(rollbackIndex)`: prune every cache
and durable table at keys `≥ rollbackIndex`, recompute the sync index as
the greatest surviving unparsed-memo key (`-1` when none), and truncate
`fail_indexes`. -/
def HistoryStorage.rollbackHistory (st : HistoryStorage) (rollbackIndex : Nat) :
    HistoryStorage :=
  let currentHistory1 := st.currentHistory.filter (fun e => e.1 < rollbackIndex)
  let newSyncIndex := st.unparsedMemo.foldl
    (fun acc e =>
      if e.1 ≥ rollbackIndex then acc
      else if (e.1 : Int) > acc then (e.1 : Int) else acc)
    (-1)
  let unparsedMemo1 := st.unparsedMemo.filter (fun e => e.1 < rollbackIndex)
  let unparsedPendingMemo1 := st.unparsedPendingMemo.filter (fun e => e.1 < rollbackIndex)
  let dbTx1 := st.dbTx.filter (fun e => e.1 < rollbackIndex)
  let dbMemo1 := st.dbMemo.filter (fun e => e.1 < rollbackIndex)
  let dbPendingMemo1 := st.dbPendingMemo.filter (fun e => e.1 < rollbackIndex)
  let dbNativeTx1 := st.dbNativeTx.filter (fun e => e.1 < rollbackIndex)
  let dbSyncIndex1 : Option Int := if newSyncIndex < 0 then none else some newSyncIndex
  let dbFailIndexes1 :=
    match st.dbFailIndexes with
    | none => st.dbFailIndexes
    | some failSyncRecords => some (failSyncRecords.filter (fun idx => idx < rollbackIndex))
  { st with
    currentHistory := currentHistory1
    unparsedMemo := unparsedMemo1
    unparsedPendingMemo := unparsedPendingMemo1
    dbTx := dbTx1
    dbMemo := dbMemo1
    dbPendingMemo := dbPendingMemo1
    dbNativeTx := dbNativeTx1
    syncIndex := newSyncIndex
    dbSyncIndex := dbSyncIndex1
    dbFailIndexes := dbFailIndexes1 }

end ZkBob

namespace ZkBob

theorem lookup_mapSet_self {κ α : Type} [BEq κ] [LawfulBEq κ]
    (m : List (κ × α)) (k : κ) (v : α) : (mapSet m k v).lookup k = some v := by
  induction m with
  | nil => simp [mapSet, List.lookup]
  | cons e rest ih =>
    simp only [mapSet]
    split
    · simp [List.lookup]
    · rename_i hne
      have h1 : (e.1 == k) = false := by simpa using hne
      have h2 : (k == e.1) = false := by
        rw [beq_eq_false_iff_ne] at h1 ⊢
        exact fun hk => h1 hk.symm
      simp [List.lookup, h2, ih]

/-- A concrete memo for the C9 witness. -/
def c9memo : DecryptedMemo :=
  { index := 130, acc := none, inNotes := [], outNotes := [], txHash := some "0xaa" }

/-- C9: a memo saved through `saveDecryptedMemo` with `pending = false`
is stored under its block-aligned base key, so `getDecryptedMemo`
returns it for every index with the same aligned base. -/
theorem saveDecryptedMemo_roundtrip (st : HistoryStorage) (memo : DecryptedMemo)
    (i : Nat) (allowPending : Bool)
    (h : alignedMemoIndex i = alignedMemoIndex memo.index) :
    (st.saveDecryptedMemo memo false).getDecryptedMemo i allowPending = some memo := by
  have hdb : (st.saveDecryptedMemo memo false).dbMemo
      = mapSet st.dbMemo (alignedMemoIndex memo.index) memo := by
    unfold HistoryStorage.saveDecryptedMemo
    by_cases hc : (memo.index : Int) > st.syncIndex <;> simp [hc]
  unfold HistoryStorage.getDecryptedMemo dbGetMemo
  rw [h, hdb]
  simp only [lookup_mapSet_self]

theorem saveDecryptedMemo_roundtrip_witness :
    alignedMemoIndex 129 = alignedMemoIndex c9memo.index ∧
      (emptyStorage.saveDecryptedMemo c9memo false).getDecryptedMemo 129 true = some c9memo :=
  ⟨by decide, saveDecryptedMemo_roundtrip emptyStorage c9memo 129 true (by decide)⟩

/-- A concrete memo for the C10 witness. -/
def c10memo : DecryptedMemo :=
  { index := 130, acc := none, inNotes := [], outNotes := [], txHash := some "0xbb" }

/-- A storage whose pending table holds `c10memo` while the mined table
is empty. -/
def c10state : HistoryStorage :=
  { emptyStorage with dbPendingMemo := [(alignedMemoIndex 130, c10memo)] }

/-- C10: `getDecryptedMemo` consults the pending table only when the
mined read yields exactly `null`; a missing key yields `undefined`, so an
index present only in the pending table resolves to no memo even with
`allowPending = true`. -/
theorem getDecryptedMemo_pending_unreachable (st : HistoryStorage) (i : Nat)
    (h : st.dbMemo.lookup (alignedMemoIndex i) = none) :
    st.getDecryptedMemo i true = none := by
  unfold HistoryStorage.getDecryptedMemo dbGetMemo
  simp only [h]

theorem getDecryptedMemo_pending_unreachable_witness :
    c10state.dbMemo.lookup (alignedMemoIndex 130) = none ∧
      c10state.dbPendingMemo.lookup (alignedMemoIndex 130) = some c10memo ∧
      c10state.getDecryptedMemo 130 true = none :=
  ⟨by decide, by decide, getDecryptedMemo_pending_unreachable c10state 130 (by decide)⟩

end ZkBob

namespace ZkBob

/-- A concrete record used by the C7 counterexample state. -/
def c7rec : HistoryRecord :=
  { type := .TransferOut, commitment := 77, timestamp := 1000, actions := []
    fee := 1, txHash := "0x07", state := .Pending, failureReason := none }

/-- A populated storage: every cache of the data model is non-empty. -/
def c7state : HistoryStorage :=
  { emptyStorage with
    queuedTxs := [("job-7", [c7rec])]
    sentTxs := [("0x07", [c7rec])]
    pendingLocalHistory := [c7rec]
    unparsedMemo := [(0, c9memo)]
    currentHistory := [(0, c7rec)]
    failedHistory := [c7rec]
    dbTx := [(0, c7rec)] }

/-- C7 counterexample: `cleanHistory` leaves the job→records map, the
hash→records map and the speculative pending-local list untouched, so
the claim that every in-memory cache is empty afterwards fails on this
state. -/
theorem cleanHistory_counterexample :
    (c7state.cleanHistory).queuedTxs = [("job-7", [c7rec])] ∧
      (c7state.cleanHistory).sentTxs = [("0x07", [c7rec])] ∧
      (c7state.cleanHistory).pendingLocalHistory = [c7rec] := by
  exact ⟨rfl, rfl, rfl⟩

/-- C7 (amended): `cleanHistory` empties all five durable tables, unsets
both sync scalars, resets the in-memory sync index, and clears the
unparsed mined/pending memo caches, the current history and the
failed-history list — while `queuedTxs`, `sentTxs` and
`pendingLocalHistory` are left exactly as they were. -/
theorem cleanHistory_clears (st : HistoryStorage) :
    (st.cleanHistory).dbTx = [] ∧
      (st.cleanHistory).dbFailedTx = [] ∧
      (st.cleanHistory).dbMemo = [] ∧
      (st.cleanHistory).dbPendingMemo = [] ∧
      (st.cleanHistory).dbNativeTx = [] ∧
      (st.cleanHistory).dbSyncIndex = none ∧
      (st.cleanHistory).dbFailIndexes = none ∧
      (st.cleanHistory).syncIndex = -1 ∧
      (st.cleanHistory).unparsedMemo = [] ∧
      (st.cleanHistory).unparsedPendingMemo = [] ∧
      (st.cleanHistory).currentHistory = [] ∧
      (st.cleanHistory).failedHistory = [] ∧
      (st.cleanHistory).queuedTxs = st.queuedTxs ∧
      (st.cleanHistory).sentTxs = st.sentTxs ∧
      (st.cleanHistory).pendingLocalHistory = st.pendingLocalHistory := by
  refine ⟨rfl, rfl, rfl, rfl, rfl, rfl, rfl, rfl, rfl, rfl, rfl, rfl, rfl, rfl, rfl⟩

/-- A concrete record for the C6 states (txHash not yet assigned). -/
def c6rec : HistoryRecord :=
  { type := .TransferOut, commitment := 66, timestamp := 2000, actions := []
    fee := 2, txHash := "0", state := .Pending, failureReason := none }

/-- A storage holding one queued job awaiting its poll. -/
def c6state : HistoryStorage :=
  { emptyStorage with queuedTxs := [("job-6", [c6rec])] }

/-- C6 counterexample: observing `completed` calls
`setQueuedTransactionsCompleted`, which only forwards to
`setTxHashForQueuedTransactions`: afterwards `queuedTxs` still contains
the job's entry and `sentTxs` now (rather than no longer) contains the
transaction hash. -/
theorem setQueuedTransactionsCompleted_counterexample :
    ((c6state.setQueuedTransactionsCompleted "job-6" "0xabc").queuedTxs.lookup
        "job-6").isSome = true ∧
      ((c6state.setQueuedTransactionsCompleted "job-6" "0xabc").sentTxs.lookup
        "0xabc").isSome = true := by
  exact ⟨rfl, rfl⟩

/-- C6 (amended): on a `completed` poll the job's bookkeeping is NOT
dropped: the job's entry stays in `queuedTxs` with the records' hash
updated to the reported one, and the records are (re)indexed in
`sentTxs` under that hash; the entries are only removed later, during a
history sync, by `removePendingTxByCommit`. -/
theorem setQueuedTransactionsCompleted_keeps_bookkeeping (st : HistoryStorage)
    (jobHash txHash : String) (records : List HistoryRecord)
    (h : st.queuedTxs.lookup jobHash = some records) :
    ((st.setQueuedTransactionsCompleted jobHash txHash).queuedTxs.lookup jobHash
        = some (records.map (fun aRec => { aRec with txHash := txHash }))) ∧
      ((st.setQueuedTransactionsCompleted jobHash txHash).sentTxs.lookup txHash
        = some (records.map (fun aRec => { aRec with txHash := txHash }))) := by
  unfold HistoryStorage.setQueuedTransactionsCompleted
    HistoryStorage.setTxHashForQueuedTransactions
  rw [h]
  exact ⟨lookup_mapSet_self _ _ _, lookup_mapSet_self _ _ _⟩

theorem setQueuedTransactionsCompleted_keeps_bookkeeping_witness :
    c6state.queuedTxs.lookup "job-6" = some [c6rec] ∧
      ((c6state.setQueuedTransactionsCompleted "job-6" "0xabc").queuedTxs.lookup "job-6"
        = some [{ c6rec with txHash := "0xabc" }]) ∧
      ((c6state.setQueuedTransactionsCompleted "job-6" "0xabc").sentTxs.lookup "0xabc"
        = some [{ c6rec with txHash := "0xabc" }]) :=
  ⟨rfl,
   (setQueuedTransactionsCompleted_keeps_bookkeeping c6state "job-6" "0xabc" [c6rec] rfl).1,
   (setQueuedTransactionsCompleted_keeps_bookkeeping c6state "job-6" "0xabc" [c6rec] rfl).2⟩

end ZkBob

namespace ZkBob

theorem tsSortBefore_eq_le (a b : HistoryRecord) :
    tsSortBefore a b = decide (a.timestamp ≤ b.timestamp) := by
  unfold tsSortBefore
  by_cases h : b.timestamp < a.timestamp
  all_goals simp [h]
  all_goals omega

theorem sortInsert_perm (a : HistoryRecord) (l : List HistoryRecord) :
    List.Perm (sortInsert a l) (a :: l) := by
  induction l with
  | nil => simp [sortInsert]
  | cons b t ih =>
    unfold sortInsert
    split
    · exact List.Perm.refl _
    · exact List.Perm.trans (List.Perm.cons b ih) (List.Perm.swap a b t)

theorem jsSortByTimestamp_perm (l : List HistoryRecord) :
    List.Perm (jsSortByTimestamp l) l := by
  induction l with
  | nil => simp [jsSortByTimestamp]
  | cons a t ih =>
    unfold jsSortByTimestamp at ih ⊢
    exact List.Perm.trans (sortInsert_perm a _) (List.Perm.cons a ih)

theorem sortInsert_pairwise (a : HistoryRecord) (l : List HistoryRecord)
    (hl : l.Pairwise (fun r1 r2 => r1.timestamp ≤ r2.timestamp)) :
    (sortInsert a l).Pairwise (fun r1 r2 => r1.timestamp ≤ r2.timestamp) := by
  induction l with
  | nil => simp [sortInsert]
  | cons b t ih =>
    rw [List.pairwise_cons] at hl
    unfold sortInsert
    split
    · rename_i hab
      rw [tsSortBefore_eq_le, decide_eq_true_iff] at hab
      rw [List.pairwise_cons]
      constructor
      · intro x hx
        rcases List.mem_cons.mp hx with hx | hx
        · exact hx ▸ hab
        · exact le_trans hab (hl.1 x hx)
      · rw [List.pairwise_cons]
        exact hl
    · rename_i hab
      rw [tsSortBefore_eq_le, decide_eq_true_iff] at hab
      push_neg at hab
      rw [List.pairwise_cons]
      constructor
      · intro x hx
        have hx2 := (sortInsert_perm a t).mem_iff.mp hx
        rcases List.mem_cons.mp hx2 with hx2 | hx2
        · subst hx2
          omega
        · exact hl.1 x hx2
      · exact ih hl.2

theorem jsSortByTimestamp_pairwise (l : List HistoryRecord) :
    (jsSortByTimestamp l).Pairwise (fun r1 r2 => r1.timestamp ≤ r2.timestamp) := by
  induction l with
  | nil => simp [jsSortByTimestamp]
  | cons a t ih => exact sortInsert_pairwise a _ ih

/-- Older record for the C5 counterexample. -/
def c5recOld : HistoryRecord :=
  { type := .Deposit, commitment := 1, timestamp := 100, actions := []
    fee := 0, txHash := "0x51", state := .Mined, failureReason := none }

/-- Newer record for the C5 counterexample. -/
def c5recNew : HistoryRecord :=
  { type := .Deposit, commitment := 2, timestamp := 200, actions := []
    fee := 0, txHash := "0x52", state := .Mined, failureReason := none }

/-- The newer record is confirmed, the older one failed. -/
def c5state : HistoryStorage :=
  { emptyStorage with currentHistory := [(0, c5recNew)], failedHistory := [c5recOld] }

/-- C5 counterexample: the comparator
`(rec1, rec2) => 0 - (rec1.timestamp > rec2.timestamp ? -1 : 1)` orders
records by ASCENDING timestamp, so the oldest record comes first, not
the newest: the merged view of a newer confirmed record and an older
failed record starts with the older one. -/
theorem getAllHistory_order_counterexample :
    c5state.historyView = [c5recOld, c5recNew] ∧
      c5recOld.timestamp < c5recNew.timestamp := by
  exact ⟨rfl, by decide⟩

/-- C5 (amended): the list returned by `getAllHistory` is the union (a
permutation) of the confirmed (`currentHistory`), failed
(`failedHistory`) and speculative (`pendingLocalHistory`) records,
sorted by timestamp in ASCENDING order (oldest record first). -/
theorem getAllHistory_merged_sorted (st : HistoryStorage) :
    List.Perm st.historyView
        ((st.currentHistory.map (fun e => e.2)) ++ st.failedHistory ++ st.pendingLocalHistory) ∧
      st.historyView.Pairwise (fun r1 r2 => r1.timestamp ≤ r2.timestamp) := by
  exact ⟨jsSortByTimestamp_perm _, jsSortByTimestamp_pairwise _⟩

end ZkBob

namespace ZkBob

theorem rollbackFold_ge (N : Nat) (l : List (Nat × DecryptedMemo)) (init : Int) :
    init ≤ l.foldl
      (fun acc e => if e.1 ≥ N then acc else if (e.1 : Int) > acc then (e.1 : Int) else acc)
      init := by
  induction l generalizing init with
  | nil => simp
  | cons e t ih =>
    simp only [List.foldl]
    refine le_trans ?_ (ih _)
    split
    · exact le_refl _
    · split <;> omega

theorem rollbackFold_lt (N : Nat) (l : List (Nat × DecryptedMemo)) (init : Int)
    (h : init < (N : Int)) :
    l.foldl
      (fun acc e => if e.1 ≥ N then acc else if (e.1 : Int) > acc then (e.1 : Int) else acc)
      init < (N : Int) := by
  induction l generalizing init with
  | nil => simpa using h
  | cons e t ih =>
    simp only [List.foldl]
    apply ih
    split
    · exact h
    · rename_i hlt
      split <;> omega

theorem rollbackFold_mem (N : Nat) (l : List (Nat × DecryptedMemo)) (init : Int) :
    (l.foldl
        (fun acc e => if e.1 ≥ N then acc else if (e.1 : Int) > acc then (e.1 : Int) else acc)
        init = init) ∨
      ∃ e ∈ l, e.1 < N ∧
        l.foldl
          (fun acc e => if e.1 ≥ N then acc else if (e.1 : Int) > acc then (e.1 : Int) else acc)
          init = (e.1 : Int) := by
  induction l generalizing init with
  | nil => left; rfl
  | cons e t ih =>
    simp only [List.foldl]
    by_cases hge : e.1 ≥ N
    · simp only [hge, if_pos, ge_iff_le, if_true]
      rcases ih init with h | ⟨e2, he2, hlt2, heq2⟩
      · left; simpa [hge] using h
      · right; exact ⟨e2, List.mem_cons_of_mem e he2, hlt2, by simpa [hge] using heq2⟩
    · have hlt : e.1 < N := by omega
      by_cases hgt : (e.1 : Int) > init
      · rcases ih (e.1 : Int) with h | ⟨e2, he2, hlt2, heq2⟩
        · right
          exact ⟨e, List.mem_cons_self e t, hlt, by simpa [hge, hgt] using h⟩
        · right
          exact ⟨e2, List.mem_cons_of_mem e he2, hlt2, by simpa [hge, hgt] using heq2⟩
      · rcases ih init with h | ⟨e2, he2, hlt2, heq2⟩
        · left; simpa [hge, hgt] using h
        · right; exact ⟨e2, List.mem_cons_of_mem e he2, hlt2, by simpa [hge, hgt] using heq2⟩

theorem rollbackFold_ub (N : Nat) (l : List (Nat × DecryptedMemo)) (init : Int) :
    ∀ e ∈ l, e.1 < N →
      (e.1 : Int) ≤ l.foldl
        (fun acc e => if e.1 ≥ N then acc else if (e.1 : Int) > acc then (e.1 : Int) else acc)
        init := by
  induction l generalizing init with
  | nil => intro e he; exact absurd he (List.not_mem_nil e)
  | cons e t ih =>
    intro x hx hxlt
    rcases List.mem_cons.mp hx with hx | hx
    · subst hx
      simp only [List.foldl]
      have hge : ¬ x.1 ≥ N := by omega
      by_cases hgt : (x.1 : Int) > init
      · simp only [hge, if_false, hgt, if_true, ge_iff_le]
        have := rollbackFold_ge N t (x.1 : Int)
        simpa [hge, hgt] using this
      · have h1 : (x.1 : Int) ≤ init := by omega
        refine le_trans h1 ?_
        have := rollbackFold_ge N t init
        simpa [hge, hgt] using this
    · simp only [List.foldl]
      exact ih _ x hx hxlt

end ZkBob

namespace ZkBob

/-- A mined record surviving the C2 rollback. -/
def c2rec : HistoryRecord :=
  { type := .Deposit, commitment := 21, timestamp := 500, actions := []
    fee := 0, txHash := "0x02", state := .Mined, failureReason := none }

/-- A storage fully synced up to index 10: the memo at 10 was already
reconciled, so the unparsed-memo cache is empty. -/
def c2state : HistoryStorage :=
  { emptyStorage with
    syncIndex := 10
    dbSyncIndex := some 10
    currentHistory := [(10, c2rec)]
    dbTx := [(10, c2rec)]
    dbMemo := [(10, c9memo)] }

/-- C2 counterexample: `rollbackHistory(50)` recomputes the sync index
only from the in-memory unparsed-memo cache; here that cache is empty,
so the sync index becomes unset (-1, key deleted) even though a mined
record and its memo at index 10 < 50 survive — contradicting "sync index
equals the greatest surviving mined index below N (or unset when none
survives)". -/
theorem rollbackHistory_counterexample :
    (c2state.rollbackHistory 50).syncIndex = -1 ∧
      (c2state.rollbackHistory 50).dbSyncIndex = none ∧
      (c2state.rollbackHistory 50).currentHistory = [(10, c2rec)] ∧
      (c2state.rollbackHistory 50).dbMemo = [(10, c9memo)] ∧
      c2rec.state = HistoryRecordState.Mined := by
  exact ⟨rfl, rfl, rfl, rfl, rfl⟩

/-- Elements surviving a `< N` key filter have keys below `N`. -/
theorem mem_filter_key_lt {α : Type} (l : List (Nat × α)) (N : Nat) :
    ∀ e ∈ l.filter (fun e => e.1 < N), e.1 < N := by
  intro e he
  simpa using (List.mem_filter.mp he).2

/-- Elements surviving a `< N` filter on indexes are below `N`. -/
theorem mem_filter_idx_lt (l : List Nat) (N : Nat) :
    ∀ i ∈ l.filter (fun idx => idx < N), i < N := by
  intro i hi
  simpa using (List.mem_filter.mp hi).2

/-- C2 (amended): after `rollbackHistory(N)` no history record or memo
with store key ≥ N remains in the caches or the durable tables, the
persisted unresolved-index set only holds indices < N, and the sync
index equals the greatest key < N of the PREVIOUS in-memory
unparsed-mined-memo cache — or is unset (-1, durable key deleted) when
that cache holds no key < N (regardless of surviving mined records or
durable memos below N). -/
theorem rollbackHistory_correct (st : HistoryStorage) (N : Nat) :
    (∀ e ∈ (st.rollbackHistory N).currentHistory, e.1 < N) ∧
      (∀ e ∈ (st.rollbackHistory N).unparsedMemo, e.1 < N) ∧
      (∀ e ∈ (st.rollbackHistory N).unparsedPendingMemo, e.1 < N) ∧
      (∀ e ∈ (st.rollbackHistory N).dbTx, e.1 < N) ∧
      (∀ e ∈ (st.rollbackHistory N).dbMemo, e.1 < N) ∧
      (∀ e ∈ (st.rollbackHistory N).dbPendingMemo, e.1 < N) ∧
      (∀ e ∈ (st.rollbackHistory N).dbNativeTx, e.1 < N) ∧
      (∀ i ∈ ((st.rollbackHistory N).dbFailIndexes.getD []), i < N) ∧
      (st.rollbackHistory N).syncIndex < (N : Int) ∧
      (-1 : Int) ≤ (st.rollbackHistory N).syncIndex ∧
      ((st.rollbackHistory N).syncIndex = -1 ∨
        ∃ e ∈ st.unparsedMemo, e.1 < N ∧ (st.rollbackHistory N).syncIndex = (e.1 : Int)) ∧
      (∀ e ∈ st.unparsedMemo, e.1 < N → (e.1 : Int) ≤ (st.rollbackHistory N).syncIndex) ∧
      ((st.rollbackHistory N).dbSyncIndex =
        if (st.rollbackHistory N).syncIndex < 0 then none
        else some (st.rollbackHistory N).syncIndex) := by
  have hs : (st.rollbackHistory N).syncIndex
      = st.unparsedMemo.foldl
          (fun acc e => if e.1 ≥ N then acc else if (e.1 : Int) > acc then (e.1 : Int) else acc)
          (-1) := rfl
  have hfail : ∀ i ∈ ((st.rollbackHistory N).dbFailIndexes.getD []), i < N := by
    have hdb : (st.rollbackHistory N).dbFailIndexes
        = (match st.dbFailIndexes with
           | none => st.dbFailIndexes
           | some failSyncRecords => some (failSyncRecords.filter (fun idx => idx < N))) := rfl
    rcases hv : st.dbFailIndexes with _ | l
    · rw [hdb, hv]
      intro i hi
      simp [hv] at hi
    · rw [hdb, hv]
      exact mem_filter_idx_lt l N
  refine ⟨mem_filter_key_lt _ _, mem_filter_key_lt _ _, mem_filter_key_lt _ _,
    mem_filter_key_lt _ _, mem_filter_key_lt _ _, mem_filter_key_lt _ _,
    mem_filter_key_lt _ _, hfail, ?_, ?_, ?_, ?_, ?_⟩
  · rw [hs]
    exact rollbackFold_lt N _ _ (by omega)
  · rw [hs]
    exact rollbackFold_ge N _ _
  · rw [hs]
    rcases rollbackFold_mem N st.unparsedMemo (-1) with h | ⟨e, he, hlt, heq⟩
    · left; exact h
    · right; exact ⟨e, he, hlt, heq⟩
  · intro e he hlt
    rw [hs]
    exact rollbackFold_ub N _ _ e he hlt
  · rw [hs]
    rfl

end ZkBob

namespace ZkBob

/-- The running `newSyncIndex` of `syncHistory`'s record loop: it is
overwritten with the index of every `Mined` record, in list order. -/
def lastMinedIdx : List HistoryRecordIdx → Int → Int
  | [], i => i
  | r :: t, i =>
    lastMinedIdx t (if r.record.state == HistoryRecordState.Mined then (r.index : Int) else i)

/-- The indexes of the records that became `Mined`, in list order. -/
def minedIdxs (l : List HistoryRecordIdx) : List Nat :=
  (l.filter (fun r => r.record.state == HistoryRecordState.Mined)).map (fun r => r.index)

theorem applyRecords_third (l : List HistoryRecordIdx)
    (c d : List (Nat × HistoryRecord)) (i : Int) :
    (l.foldl
      (fun (acc : List (Nat × HistoryRecord) × List (Nat × HistoryRecord) × Int) oneRec =>
        let cur := mapSet acc.1 oneRec.index oneRec.record
        if oneRec.record.state == HistoryRecordState.Mined then
          (cur, mapSet acc.2.1 oneRec.index oneRec.record, (oneRec.index : Int))
        else
          (cur, acc.2.1, acc.2.2))
      (c, d, i)).2.2 = lastMinedIdx l i := by
  induction l generalizing c d i with
  | nil => rfl
  | cons r t ih =>
    simp only [List.foldl, lastMinedIdx]
    by_cases hm : (r.record.state == HistoryRecordState.Mined) = true
    · simp only [hm, if_true]
      exact ih _ _ _
    · simp only [hm, if_false]
      exact ih _ _ _

theorem lastMinedIdx_eq_fold (l : List HistoryRecordIdx) (i : Int) :
    lastMinedIdx l i = (minedIdxs l).foldl (fun _acc j => ((j : Nat) : Int)) i := by
  induction l generalizing i with
  | nil => rfl
  | cons r t ih =>
    by_cases hm : (r.record.state == HistoryRecordState.Mined) = true
    · simp only [lastMinedIdx, minedIdxs, List.filter, hm, List.map, List.foldl, if_true]
      exact ih _
    · simp only [lastMinedIdx, minedIdxs, List.filter, hm, if_false]
      exact ih _

theorem foldLast_bounds (js : List Nat) (i : Int)
    (hsorted : js.Pairwise (fun a b => a ≤ b)) (hi : ∀ j ∈ js, i ≤ (j : Int)) :
    i ≤ js.foldl (fun _acc j => ((j : Nat) : Int)) i ∧
      ∀ j ∈ js, (j : Int) ≤ js.foldl (fun _acc j => ((j : Nat) : Int)) i := by
  induction js generalizing i with
  | nil => exact ⟨le_refl _, by intro j hj; exact absurd hj (List.not_mem_nil j)⟩
  | cons a t ih =>
    rw [List.pairwise_cons] at hsorted
    have hstep : ∀ j ∈ t, ((a : Nat) : Int) ≤ (j : Int) := by
      intro j hj
      exact_mod_cast hsorted.1 j hj
    rcases ih (a : Int) hsorted.2 hstep with ⟨h1, h2⟩
    refine ⟨?_, ?_⟩
    · exact le_trans (hi a (List.mem_cons_self a t)) h1
    · intro j hj
      rcases List.mem_cons.mp hj with hj | hj
      · subst hj
        exact h1
      · exact h2 j hj

theorem foldLast_mem (js : List Nat) (i : Int) :
    js.foldl (fun _acc j => ((j : Nat) : Int)) i = i ∨
      ∃ j ∈ js, js.foldl (fun _acc j => ((j : Nat) : Int)) i = (j : Int) := by
  induction js generalizing i with
  | nil => left; rfl
  | cons a t ih =>
    rcases ih (a : Int) with h | ⟨j, hj, hje⟩
    · right
      exact ⟨a, List.mem_cons_self a t, h⟩
    · right
      exact ⟨j, List.mem_cons_of_mem a hj, hje⟩

theorem syncCommit_syncIndex (st : HistoryStorage) (mo po : ConvResult) :
    (syncCommit st mo po).syncIndex
      = max st.syncIndex (lastMinedIdx (mo.records ++ po.records) st.syncIndex) := by
  unfold syncCommit
  simp only [applyRecords_third]

end ZkBob

namespace ZkBob

/-- `convertToHistory` touches the storage only through
`removePendingTxByCommit`, i.e. everything except the two aux queues is
preserved; this predicate captures that frame. -/
def sameExceptQueues (a b : HistoryStorage) : Prop :=
  a.syncIndex = b.syncIndex ∧
    a.unparsedMemo = b.unparsedMemo ∧
    a.unparsedPendingMemo = b.unparsedPendingMemo ∧
    a.currentHistory = b.currentHistory ∧
    a.failedHistory = b.failedHistory ∧
    a.pendingLocalHistory = b.pendingLocalHistory ∧
    a.dbTx = b.dbTx ∧
    a.dbFailedTx = b.dbFailedTx ∧
    a.dbMemo = b.dbMemo ∧
    a.dbPendingMemo = b.dbPendingMemo ∧
    a.dbNativeTx = b.dbNativeTx ∧
    a.dbSyncIndex = b.dbSyncIndex ∧
    a.dbFailIndexes = b.dbFailIndexes

theorem sameExceptQueues_refl (a : HistoryStorage) : sameExceptQueues a a :=
  ⟨rfl, rfl, rfl, rfl, rfl, rfl, rfl, rfl, rfl, rfl, rfl, rfl, rfl⟩

theorem sameExceptQueues_trans {a b c : HistoryStorage}
    (h1 : sameExceptQueues a b) (h2 : sameExceptQueues b c) : sameExceptQueues a c := by
  obtain ⟨e1, e2, e3, e4, e5, e6, e7, e8, e9, e10, e11, e12, e13⟩ := h1
  obtain ⟨f1, f2, f3, f4, f5, f6, f7, f8, f9, f10, f11, f12, f13⟩ := h2
  exact ⟨e1.trans f1, e2.trans f2, e3.trans f3, e4.trans f4, e5.trans f5, e6.trans f6,
    e7.trans f7, e8.trans f8, e9.trans f9, e10.trans f10, e11.trans f11, e12.trans f12,
    e13.trans f13⟩

theorem removePendingTxByCommit_frame (st : HistoryStorage) (c : Int) :
    sameExceptQueues (st.removePendingTxByCommit c) st :=
  ⟨rfl, rfl, rfl, rfl, rfl, rfl, rfl, rfl, rfl, rfl, rfl, rfl, rfl⟩

theorem convertTxDetails_frame (env : Env) (st : HistoryStorage) (pending : Bool)
    (memos : List DecryptedMemo) (tx : PoolTxDetails) (recs : List HistoryRecordIdx)
    (st1 : HistoryStorage)
    (h : convertTxDetails env st pending memos tx = .ok (recs, st1)) :
    sameExceptQueues st1 st := by
  unfold convertTxDetails at h
  cases hr : convertTxDetailsRecords env pending memos tx with
  | error e => rw [hr] at h; cases h
  | ok r =>
    rw [hr] at h
    simp only [Except.ok.injEq, Prod.mk.injEq] at h
    rcases h with ⟨-, h2⟩
    subst h2
    cases tx with
    | mk ptt idx det =>
      cases ptt <;> cases det <;> simp only []
      · split
        · exact removePendingTxByCommit_frame _ _
        · exact sameExceptQueues_refl _
      · exact sameExceptQueues_refl _
      · exact sameExceptQueues_refl _
      · exact sameExceptQueues_refl _

theorem convertFetchedLoop_frame (env : Env) (pending : Bool) (memos : List DecryptedMemo) :
    ∀ (txs : List PoolTxDetails) (st : HistoryStorage) (acc recs : List HistoryRecordIdx)
      (st1 : HistoryStorage),
      convertFetchedLoop env pending memos st txs acc = .ok (recs, st1) →
        sameExceptQueues st1 st := by
  intro txs
  induction txs with
  | nil =>
    intro st acc recs st1 h
    unfold convertFetchedLoop at h
    simp only [Except.ok.injEq, Prod.mk.injEq] at h
    rcases h with ⟨-, h2⟩
    subst h2
    exact sameExceptQueues_refl _
  | cons tx rest ih =>
    intro st acc recs st1 h
    unfold convertFetchedLoop at h
    cases hc : convertTxDetails env st pending memos tx with
    | error e => rw [hc] at h; cases h
    | ok p =>
      rw [hc] at h
      exact sameExceptQueues_trans (ih _ _ _ _ h) (convertTxDetails_frame _ _ _ _ _ _ _ hc)

theorem convertToHistory_frame (env : Env) (st : HistoryStorage)
    (memos : List DecryptedMemo) (pending : Bool) (st1 : HistoryStorage) (res : ConvResult)
    (h : st.convertToHistory env memos pending = .ok (st1, res)) :
    sameExceptQueues st1 st := by
  simp only [HistoryStorage.convertToHistory] at h
  split at h
  · cases h
  · rename_i recs1 stm heq
    split at h
    · cases h
    · simp only [Except.ok.injEq, Prod.mk.injEq] at h
      rcases h with ⟨h1, -⟩
      subst h1
      exact convertFetchedLoop_frame env pending memos _ _ _ _ _ heq

end ZkBob

namespace ZkBob

theorem foldLast_ub2 (js : List Nat) (i : Int)
    (hsorted : js.Pairwise (fun a b => a ≤ b)) :
    ∀ j ∈ js, (j : Int) ≤ js.foldl (fun _acc j => ((j : Nat) : Int)) i := by
  induction js generalizing i with
  | nil => intro j hj; exact absurd hj (List.not_mem_nil j)
  | cons a t ih =>
    rw [List.pairwise_cons] at hsorted
    intro j hj
    rcases List.mem_cons.mp hj with hj | hj
    · subst hj
      exact (foldLast_bounds t (j : Int) hsorted.2
        (fun x hx => by exact_mod_cast hsorted.1 x hx)).1
    · exact ih (a : Int) hsorted.2 j hj

theorem syncHistory_syncIndex_mono (env : Env) (st st' : HistoryStorage) (b : Bool)
    (h : st.syncHistory env = .ok (st', b)) : st.syncIndex ≤ st'.syncIndex := by
  unfold HistoryStorage.syncHistory at h
  split at h
  · simp only [Except.ok.injEq, Prod.mk.injEq] at h
    rcases h with ⟨h1, -⟩
    subst h1
    exact le_refl _
  · split at h
    · cases h
    · rename_i st1 mo heq1
      split at h
      · cases h
      · rename_i st2 po heq2
        simp only [Except.ok.injEq, Prod.mk.injEq] at h
        rcases h with ⟨h1, -⟩
        subst h1
        have hframe1 := convertToHistory_frame _ _ _ _ _ _ heq1
        have hframe2 := convertToHistory_frame _ _ _ _ _ _ heq2
        have hsi : st2.syncIndex = st.syncIndex := hframe2.1.trans hframe1.1
        have hview : (recomputePendingLocal (syncCommit st2 mo po)).syncIndex
            = (syncCommit st2 mo po).syncIndex := rfl
        rw [hview, syncCommit_syncIndex, hsi]
        exact le_max_left _ _

/-- Trivial remote environment: no subgraph, RPC knows nothing. -/
def envNone : Env :=
  { subgraph := none
    getTxDetails := fun _ _ => none
    state := { assembleAddress := fun _ _ => "", isOwnAddress := fun _ => false } }

/-- Mined record at index 200, produced first in a pass. -/
def c3recA : HistoryRecordIdx :=
  { index := 200
    record := { type := .Deposit, commitment := 31, timestamp := 10, actions := []
                fee := 0, txHash := "0xa", state := .Mined, failureReason := none } }

/-- Mined record at index 100, produced second in the same pass. -/
def c3recB : HistoryRecordIdx :=
  { index := 100
    record := { type := .Deposit, commitment := 32, timestamp := 11, actions := []
                fee := 0, txHash := "0xb", state := .Mined, failureReason := none } }

/-- A mined-pass conversion result whose records arrive in decreasing
index order (as remote batch responses may). -/
def c3mined : ConvResult :=
  { records := [c3recA, c3recB], succIdxs := [200, 100], failIdxs := [], resyncIdxs := [] }

/-- The same records in increasing index order. -/
def c3sorted : ConvResult :=
  { records := [c3recB, c3recA], succIdxs := [100, 200], failIdxs := [], resyncIdxs := [] }

/-- An empty pending-pass conversion result. -/
def c3pending : ConvResult :=
  { records := [], succIdxs := [], failIdxs := [], resyncIdxs := [] }

/-- C3 counterexample: a pass whose Mined records arrive out of index
order ([@200, @100]) commits sync index 100, not the maximum Mined
index 200 — `newSyncIndex` is overwritten by the LAST Mined record. -/
theorem syncIndex_not_max_counterexample :
    (syncCommit emptyStorage c3mined c3pending).syncIndex = 100 ∧
      (200 : Nat) ∈ minedIdxs (c3mined.records ++ c3pending.records) := by
  exact ⟨rfl, by decide⟩

/-- C3 (amended): the sync index is non-decreasing across reconciliation
passes (rollback excepted); after the commit phase of a pass it equals
`max` of its previous value and the index of the LAST record that became
`Mined` in the pass's record list — which is the maximum Mined index
whenever the Mined records carry nondecreasing indexes. -/
theorem syncIndex_monotone_lastMined :
    (∀ (env : Env) (st st' : HistoryStorage) (b : Bool),
        st.syncHistory env = .ok (st', b) → st.syncIndex ≤ st'.syncIndex) ∧
      (∀ (st : HistoryStorage) (mo po : ConvResult),
        (minedIdxs (mo.records ++ po.records)).Pairwise (fun a b => a ≤ b) →
          st.syncIndex ≤ (syncCommit st mo po).syncIndex ∧
            (∀ j ∈ minedIdxs (mo.records ++ po.records),
              (j : Int) ≤ (syncCommit st mo po).syncIndex) ∧
            ((syncCommit st mo po).syncIndex = st.syncIndex ∨
              ∃ j ∈ minedIdxs (mo.records ++ po.records),
                (syncCommit st mo po).syncIndex = (j : Int))) := by
  refine ⟨syncHistory_syncIndex_mono, ?_⟩
  intro st mo po hsorted
  rw [syncCommit_syncIndex, lastMinedIdx_eq_fold]
  refine ⟨le_max_left _ _, ?_, ?_⟩
  · intro j hj
    exact le_trans (foldLast_ub2 _ st.syncIndex hsorted j hj) (le_max_right _ _)
  · rcases foldLast_mem (minedIdxs (mo.records ++ po.records)) st.syncIndex with h | ⟨j, hj, hje⟩
    · left
      rw [h]
      exact max_self _
    · rcases le_total st.syncIndex (j : Int) with hle | hle
      · right
        exact ⟨j, hj, by rw [hje, max_eq_right hle]⟩
      · left
        rw [hje, max_eq_left hle]

theorem syncIndex_monotone_lastMined_witness :
    emptyStorage.syncHistory envNone = .ok (emptyStorage, true) ∧
      emptyStorage.syncIndex ≤ emptyStorage.syncIndex ∧
      (minedIdxs (c3sorted.records ++ c3pending.records)).Pairwise (fun a b => a ≤ b) ∧
      ((200 : Int) ≤ (syncCommit emptyStorage c3sorted c3pending).syncIndex) :=
  ⟨rfl,
   syncIndex_monotone_lastMined.1 envNone emptyStorage emptyStorage true rfl,
   by decide,
   (syncIndex_monotone_lastMined.2 emptyStorage c3sorted c3pending (by decide)).2.1 200
     (by decide)⟩

end ZkBob

namespace ZkBob

/-- C8: a fetched regular transaction of withdrawal kind converts to
exactly one HistoryRecord with a single action to the withdrawal
address, amount `-(tokenAmount + feeAmount)` and fee `feeAmount`
(exact `Int` arithmetic). -/
theorem convertToHistory_withdrawal (env : Env) (pending : Bool)
    (memos : List DecryptedMemo) (tx : PoolTxDetails) (d : RegularTxDetails)
    (addr : String) (recs : List HistoryRecordIdx)
    (hd : tx.details = .regular d) (ht : d.txType = .Withdraw)
    (haddr : d.withdrawAddr = some addr)
    (hok : convertTxDetailsRecords env pending memos tx = .ok recs) :
    ∃ i, recs =
      [{ index := i
         record := { type := .Withdrawal
                     commitment := d.commitment
                     timestamp := d.timestamp
                     actions := [{ from_ := "", to_ := addr
                                   amount := -(d.tokenAmount + d.feeAmount)
                                   ddFee := none, isLoopback := false }]
                     fee := d.feeAmount
                     txHash := d.txHash
                     state := if pending then .Pending else .Mined
                     failureReason := none } }] := by
  obtain ⟨ptt, idx, det⟩ := tx
  simp only [PoolTxDetails.details] at hd
  subst hd
  unfold convertTxDetailsRecords at hok
  cases hfind : memos.find? (fun m => memoMatches m ⟨ptt, idx, .regular d⟩) with
  | none => rw [hfind] at hok; cases hok
  | some memo =>
    rw [hfind] at hok
    cases ptt with
    | DirectDepositBatch => cases hok
    | Regular =>
      simp only [PoolTxDetails.details, PoolTxDetails.poolTxType, PoolTxDetails.index] at hok
      rw [ht] at hok
      simp only [Except.ok.injEq] at hok
      refine ⟨memo.index, ?_⟩
      rw [← hok]
      unfold HistoryRecord.withdraw
      rw [haddr]
      rfl

/-- The withdrawal tx detail for the C8 witness. -/
def c8details : RegularTxDetails :=
  { txType := .Withdraw, txHash := "0x88", timestamp := 123, tokenAmount := 500
    feeAmount := 5, depositAddr := none, withdrawAddr := some "0xdst", commitment := 9 }

/-- The fetched pool transaction for the C8 witness. -/
def c8tx : PoolTxDetails :=
  { poolTxType := .Regular, index := 40, details := .regular c8details }

/-- A memo correlating with `c8tx` by index. -/
def c8memo : DecryptedMemo :=
  { index := 40, acc := some { id := 1 }, inNotes := [], outNotes := [], txHash := some "0x88" }

theorem convertToHistory_withdrawal_witness :
    c8tx.details = .regular c8details ∧
      c8details.txType = .Withdraw ∧
      c8details.withdrawAddr = some "0xdst" ∧
      ∃ i, (convertTxDetailsRecords envNone false [c8memo] c8tx).toOption.getD [] =
        [{ index := i
           record := { type := .Withdrawal
                       commitment := 9
                       timestamp := 123
                       actions := [{ from_ := "", to_ := "0xdst"
                                     amount := -505
                                     ddFee := none, isLoopback := false }]
                       fee := 5
                       txHash := "0x88"
                       state := .Mined
                       failureReason := none } }] := by
  refine ⟨rfl, rfl, rfl, ?_⟩
  rcases convertToHistory_withdrawal envNone false [c8memo] c8tx c8details "0xdst"
      ((convertTxDetailsRecords envNone false [c8memo] c8tx).toOption.getD [])
      rfl rfl rfl (by rfl) with ⟨i, hi⟩
  exact ⟨i, by rw [hi]; rfl⟩

end ZkBob

namespace ZkBob

theorem syncHistoryLoop_attempts_le (envs : Nat → Env) :
    ∀ (fuel : Nat) (st : HistoryStorage) (k : Nat), k < MAX_SYNC_ATTEMPTS →
      (syncHistoryLoop envs fuel st k).2.2 ≤ MAX_SYNC_ATTEMPTS := by
  intro fuel
  induction fuel with
  | zero =>
    intro st k hk
    unfold syncHistoryLoop
    cases st.syncHistory (envs k) with
    | error e => simpa using hk
    | ok p =>
      rcases p with ⟨st1, r⟩
      by_cases hr : r = true
      · simp [hr]
        omega
      · simp at hr
        simp [hr]
        omega
  | succ fuel1 ih =>
    intro st k hk
    unfold syncHistoryLoop
    cases st.syncHistory (envs k) with
    | error e => simpa using hk
    | ok p =>
      rcases p with ⟨st1, r⟩
      by_cases hr : r = true
      · simp [hr]
        omega
      · simp at hr
        simp only [hr]
        by_cases hlt : k + 1 < MAX_SYNC_ATTEMPTS
        · simpa [hlt] using ih st1 (k + 1) hlt
        · simp [hlt]
          omega

/-- C4: `getAllHistory` absorbs transient remote failures: the constant
bound is `MAX_SYNC_ATTEMPTS = 3`; no call runs more than 3 passes; the
result is always the merged view of the final state; when the first two
passes leave memos unconverted the loop runs exactly 3 passes and still
resolves; and a pass over a non-empty unparsed set always persists the
unresolved (failed ++ needs-resync) indexes durably while reporting
success exactly when the unparsed cache drained. -/
theorem getAllHistory_transient_resilient :
    MAX_SYNC_ATTEMPTS = 3 ∧
      (∀ (envs : Nat → Env) (st : HistoryStorage),
        (st.getAllHistory envs).2.2 ≤ MAX_SYNC_ATTEMPTS) ∧
      (∀ (envs : Nat → Env) (st : HistoryStorage),
        (st.getAllHistory envs).1 = (st.getAllHistory envs).2.1.historyView) ∧
      (∀ (envs : Nat → Env) (st st1 st2 st3 : HistoryStorage) (r3 : Bool),
        st.syncHistory (envs 0) = .ok (st1, false) →
        st1.syncHistory (envs 1) = .ok (st2, false) →
        st2.syncHistory (envs 2) = .ok (st3, r3) →
        (st.getAllHistory envs).2.1 = st3 ∧ (st.getAllHistory envs).2.2 = 3) ∧
      (∀ (env : Env) (s s1 s2 s' : HistoryStorage) (mo po : ConvResult) (b : Bool),
        s.unparsedMemo.isEmpty = false →
        s.convertToHistory env (s.unparsedMemo.map (fun e => e.2)) false = .ok (s1, mo) →
        s1.convertToHistory env (s.unparsedPendingMemo.map (fun e => e.2)) true = .ok (s2, po) →
        s.syncHistory env = .ok (s', b) →
        s'.dbFailIndexes
            = some ((mo.failIdxs ++ po.failIdxs) ++ (mo.resyncIdxs ++ po.resyncIdxs)) ∧
          b = s'.unparsedMemo.isEmpty) := by
  refine ⟨rfl, ?_, ?_, ?_, ?_⟩
  · intro envs st
    exact syncHistoryLoop_attempts_le envs MAX_SYNC_ATTEMPTS st 0 (by decide)
  · intro envs st
    rfl
  · intro envs st st1 st2 st3 r3 h0 h1 h2
    have : st.getAllHistory envs
        = ((syncHistoryLoop envs MAX_SYNC_ATTEMPTS st 0).1.historyView,
           (syncHistoryLoop envs MAX_SYNC_ATTEMPTS st 0).1,
           (syncHistoryLoop envs MAX_SYNC_ATTEMPTS st 0).2.2) := rfl
    rw [this]
    unfold syncHistoryLoop
    rw [h0]
    simp only [if_false, Bool.false_eq_true]
    unfold syncHistoryLoop
    rw [h1]
    simp only [if_false, Bool.false_eq_true]
    unfold syncHistoryLoop
    rw [h2]
    cases r3 <;> simp [MAX_SYNC_ATTEMPTS]
  · intro env s s1 s2 s' mo po b hne hc1 hc2 hs
    unfold HistoryStorage.syncHistory at hs
    rw [hne] at hs
    simp only [Bool.false_and, Bool.false_eq_true, if_false] at hs
    rw [hc1] at hs
    simp only [] at hs
    rw [hc2] at hs
    simp only [] at hs
    simp only [Except.ok.injEq, Prod.mk.injEq] at hs
    rcases hs with ⟨h1, h2⟩
    subst h1
    subst h2
    exact ⟨rfl, rfl⟩

end ZkBob

namespace ZkBob

/-- A mined memo whose transaction is unknown to every remote source. -/
def c4memo : DecryptedMemo :=
  { index := 5, acc := none, inNotes := [], outNotes := [], txHash := some "0xw" }

/-- Storage holding only that unresolvable memo. -/
def c4state : HistoryStorage := { emptyStorage with unparsedMemo := [(5, c4memo)] }

/-- Every attempt sees the same empty remote world. -/
def c4envs : Nat → Env := fun _ => envNone

/-- The fixed point every failing pass lands on: unresolved index 5 made
durable, sync index persisted unchanged. -/
def c4state1 : HistoryStorage :=
  { c4state with dbSyncIndex := some (-1), dbFailIndexes := some [5] }

/-- The mined-pass conversion outcome for `c4state`. -/
def c4mo : ConvResult := { records := [], succIdxs := [], failIdxs := [5], resyncIdxs := [] }

/-- The pending-pass conversion outcome for `c4state`. -/
def c4po : ConvResult := { records := [], succIdxs := [], failIdxs := [], resyncIdxs := [] }

theorem getAllHistory_transient_resilient_witness :
    (c4state.getAllHistory c4envs).2.2 ≤ MAX_SYNC_ATTEMPTS ∧
      ((c4state.getAllHistory c4envs).2.1 = c4state1 ∧
        (c4state.getAllHistory c4envs).2.2 = 3) ∧
      (c4state1.dbFailIndexes
          = some ((c4mo.failIdxs ++ c4po.failIdxs) ++ (c4mo.resyncIdxs ++ c4po.resyncIdxs)) ∧
        false = c4state1.unparsedMemo.isEmpty) :=
  ⟨getAllHistory_transient_resilient.2.1 c4envs c4state,
   getAllHistory_transient_resilient.2.2.2.1 c4envs c4state c4state1 c4state1 c4state1 false
     rfl rfl rfl,
   getAllHistory_transient_resilient.2.2.2.2 envNone c4state c4state c4state c4state1
     c4mo c4po false rfl rfl rfl rfl⟩

end ZkBob

namespace ZkBob

theorem mem_foldl_dedup {α : Type} [BEq α] [LawfulBEq α] (l : List α) (acc : List α) (x : α) :
    (x ∈ l.foldl (fun acc cur => if acc.contains cur then acc else acc ++ [cur]) acc) ↔
      x ∈ acc ∨ x ∈ l := by
  induction l generalizing acc with
  | nil => simp
  | cons a t ih =>
    simp only [List.foldl]
    rw [ih]
    by_cases h : acc.contains a
    · have ha : a ∈ acc := by simpa using h
      simp only [h, if_true]
      constructor
      · rintro (hx | hx)
        · exact Or.inl hx
        · exact Or.inr (List.mem_cons_of_mem a hx)
      · rintro (hx | hx)
        · exact Or.inl hx
        · rcases List.mem_cons.mp hx with rfl | hx
          · exact Or.inl ha
          · exact Or.inr hx
    · simp only [h, if_false]
      constructor
      · rintro (hx | hx)
        · rcases List.mem_append.mp hx with hx | hx
          · exact Or.inl hx
          · simp only [List.mem_singleton] at hx
            subst hx
            exact Or.inr (List.mem_cons_self _ _)
        · exact Or.inr (List.mem_cons_of_mem a hx)
      · rintro (hx | hx)
        · exact Or.inl (List.mem_append.mpr (Or.inl hx))
        · rcases List.mem_cons.mp hx with rfl | hx
          · exact Or.inl (List.mem_append.mpr (Or.inr (by simp)))
          · exact Or.inr hx

theorem mem_removeDuplicates {α : Type} [BEq α] [LawfulBEq α] (l : List α) (x : α) :
    x ∈ removeDuplicates l ↔ x ∈ l := by
  unfold removeDuplicates
  rw [mem_foldl_dedup]
  simp

theorem getTxesDetails_fetched_cases (env : Env) (memos : List DecryptedMemo) (i : Nat)
    (hi : i ∈ (getTxesDetails env memos).fetched) :
    i ∈ (getTxesDetails env memos).needResync ∨
      ∃ tx ∈ (getTxesDetails env memos).details,
        (tx.index = i ∨ ∃ m2 ∈ memos, m2.index = i ∧ memoMatches m2 tx = true) := by
  have hi2 : i ∈ fetchedPreRpc env memos ++ (resFromRpc env memos).map (fun tx => tx.index) :=
    hi
  rcases List.mem_append.mp hi2 with hpre | hrpc
  · right
    have hm : i ∈ (subgraphTxs env memos).map (fun tx => tx.index)
        ++ fetchedIndexesByTxHashes env memos :=
      (mem_removeDuplicates _ _).mp hpre
    rcases List.mem_append.mp hm with hsub | hhash
    · rcases List.mem_map.mp hsub with ⟨tx, htx, hidx⟩
      exact ⟨tx, List.mem_append.mpr (Or.inl htx), Or.inl hidx⟩
    · rcases List.mem_map.mp hhash with ⟨m2, hm2f, hidx⟩
      have hm2 := List.mem_filter.mp hm2f
      have hcond := hm2.2
      rw [Bool.and_eq_true] at hcond
      rcases hcond with ⟨c1, -⟩
      rcases hmt : m2.txHash with _ | h
      · rw [hmt] at c1
        cases c1
      · rw [hmt] at c1
        have hh : h ∈ (subgraphTxs env memos).map (fun tx => tx.details.txHash) := by
          simpa using c1
        rcases List.mem_map.mp hh with ⟨tx, htx, hth⟩
        refine ⟨tx, List.mem_append.mpr (Or.inl htx), Or.inr ⟨m2, hm2.1, hidx, ?_⟩⟩
        unfold memoMatches
        rw [hmt, hth]
        simp
  · rcases List.mem_map.mp hrpc with ⟨tx, htx, hidx⟩
    by_cases hdd : (tx.poolTxType == PoolTxType.DirectDepositBatch && env.subgraph.isSome) = true
    · left
      apply List.mem_filterMap.mpr
      refine ⟨tx, htx, ?_⟩
      rw [hdd]
      simpa using hidx
    · right
      exact ⟨tx, List.mem_append.mpr (Or.inr htx), Or.inl hidx⟩

end ZkBob

namespace ZkBob

theorem processNotFetchedLoop_covers (sentTxs : List (String × List HistoryRecord))
    (memos : List DecryptedMemo) :
    ∀ (fuel : Nat) (arr : List Nat) (k : Nat) (fetched : List Nat)
      (acc recsF : List HistoryRecordIdx) (fetchedF arrF : List Nat),
      processNotFetchedLoop sentTxs memos fuel arr k fetched acc
          = .ok (recsF, fetchedF, arrF) →
        (∀ r ∈ acc, r ∈ recsF) ∧ (∀ i ∈ arr, i ∈ arrF ∨ ∃ r ∈ recsF, r.index = i) := by
  intro fuel
  induction fuel with
  | zero =>
    intro arr k fetched acc recsF fetchedF arrF h
    unfold processNotFetchedLoop at h
    simp only [Except.ok.injEq, Prod.mk.injEq] at h
    obtain ⟨h1, -, h3⟩ := h
    subst h1
    subst h3
    exact ⟨fun r hr => hr, fun i hi => Or.inl hi⟩
  | succ fuel ih =>
    intro arr k fetched acc recsF fetchedF arrF h
    unfold processNotFetchedLoop at h
    cases hk : arr[k]? with
    | none =>
      rw [hk] at h
      simp only [Except.ok.injEq, Prod.mk.injEq] at h
      obtain ⟨h1, -, h3⟩ := h
      subst h1
      subst h3
      exact ⟨fun r hr => hr, fun i hi => Or.inl hi⟩
    | some v =>
      rw [hk] at h
      simp only [] at h
      cases hf : memos.find? (fun m => m.index == v) with
      | none => rw [hf] at h; cases h
      | some memo =>
        rw [hf] at h
        simp only [] at h
        cases hth : memo.txHash with
        | none => rw [hth] at h; cases h
        | some hh =>
          rw [hth] at h
          simp only [] at h
          cases hlk : sentTxs.lookup hh with
          | none =>
            rw [hlk] at h
            exact ih arr (k + 1) fetched acc recsF fetchedF arrF h
          | some records =>
            rw [hlk] at h
            simp only [] at h
            cases records with
            | nil =>
              simp only [List.isEmpty_nil, if_true, List.enum_nil, List.map_nil,
                List.append_nil] at h
              exact ih arr (k + 1) fetched acc recsF fetchedF arrF h
            | cons r0 rest =>
              simp only [List.isEmpty_cons, Bool.false_eq_true, if_false] at h
              obtain ⟨ha, hb⟩ := ih _ _ _ _ _ _ _ h
              constructor
              · intro r hr
                exact ha r (List.mem_append.mpr (Or.inl hr))
              · intro i hi
                by_cases hie : i ∈ arr.erase memo.index
                · exact hb i hie
                · have hieq : i = memo.index := by
                    by_contra hne
                    exact hie ((List.mem_erase_of_ne hne).mpr hi)
                  subst hieq
                  right
                  refine ⟨{ index := memo.index + 0, record := r0 }, ?_, by simp⟩
                  apply ha
                  apply List.mem_append.mpr
                  right
                  exact List.mem_map.mpr ⟨(0, r0), List.mem_cons_self _ _, rfl⟩

theorem convertFetchedLoop_records (env : Env) (pending : Bool)
    (memos : List DecryptedMemo) :
    ∀ (txs : List PoolTxDetails) (st : HistoryStorage)
      (acc recsF : List HistoryRecordIdx) (stF : HistoryStorage),
      convertFetchedLoop env pending memos st txs acc = .ok (recsF, stF) →
        (∀ r ∈ acc, r ∈ recsF) ∧
          ∀ tx ∈ txs, ∃ recs, convertTxDetailsRecords env pending memos tx = .ok recs ∧
            ∀ r ∈ recs, r ∈ recsF := by
  intro txs
  induction txs with
  | nil =>
    intro st acc recsF stF h
    unfold convertFetchedLoop at h
    simp only [Except.ok.injEq, Prod.mk.injEq] at h
    obtain ⟨h1, -⟩ := h
    subst h1
    exact ⟨fun r hr => hr, fun tx htx => absurd htx (List.not_mem_nil tx)⟩
  | cons tx rest ih =>
    intro st acc recsF stF h
    unfold convertFetchedLoop at h
    cases hc : convertTxDetails env st pending memos tx with
    | error e => rw [hc] at h; cases h
    | ok p =>
      obtain ⟨recs, st1⟩ := p
      rw [hc] at h
      obtain ⟨ha, hb⟩ := ih st1 (acc ++ recs) recsF stF h
      have hrecs : convertTxDetailsRecords env pending memos tx = .ok recs := by
        unfold convertTxDetails at hc
        cases hr : convertTxDetailsRecords env pending memos tx with
        | error e => rw [hr] at hc; cases hc
        | ok r2 =>
          rw [hr] at hc
          simp only [Except.ok.injEq, Prod.mk.injEq] at hc
          rw [hc.1]
      constructor
      · intro r hr
        exact ha r (List.mem_append.mpr (Or.inl hr))
      · intro tx2 htx2
        rcases List.mem_cons.mp htx2 with rfl | htx2
        · exact ⟨recs, hrecs, fun r hr => ha r (List.mem_append.mpr (Or.inr hr))⟩
        · exact hb tx2 htx2

end ZkBob

namespace ZkBob

theorem convertTxDetailsRecords_covers (env : Env) (pending : Bool)
    (memos : List DecryptedMemo) (tx : PoolTxDetails) (recs : List HistoryRecordIdx)
    (hok : convertTxDetailsRecords env pending memos tx = .ok recs)
    (hcorr : ∀ m1 ∈ memos, ∀ m2 ∈ memos,
      memoMatches m1 tx = true → memoMatches m2 tx = true → m1.index = m2.index)
    (hdd : ∀ d, tx.details = .dd d → d.deposits ≠ [])
    (m : DecryptedMemo) (hm : m ∈ memos) (hmatch : memoMatches m tx = true) :
    (∃ r ∈ recs, r.index = m.index) ∨
      (∃ d, tx.details = .regular d ∧
        (d.txType = .Deposit ∨ d.txType = .BridgeDeposit) ∧
        ∃ r ∈ recs, r.index = tx.index) := by
  unfold convertTxDetailsRecords at hok
  cases hfind : memos.find? (fun m2 => memoMatches m2 tx) with
  | none =>
    exact absurd hmatch (by simpa using List.find?_eq_none.mp hfind m hm)
  | some memo0 =>
    have hmem0 : memo0 ∈ memos := List.mem_of_find?_eq_some hfind
    have hmatch0 : memoMatches memo0 tx = true :=
      @List.find?_some _ (fun m2 => memoMatches m2 tx) memo0 memos hfind
    have hidx0 : memo0.index = m.index := hcorr memo0 hmem0 m hm hmatch0 hmatch
    rw [hfind] at hok
    simp only [] at hok
    obtain ⟨ptt, idx, det⟩ := tx
    cases ptt with
    | Regular =>
      cases det with
      | dd d => cases hok
      | regular d =>
        simp only [PoolTxDetails.poolTxType, PoolTxDetails.details, PoolTxDetails.index] at hok ⊢
        cases htt : d.txType with
        | Deposit =>
          rw [htt] at hok
          simp only [Except.ok.injEq] at hok
          subst hok
          right
          exact ⟨d, rfl, Or.inl htt, _, List.mem_cons_self _ _, rfl⟩
        | BridgeDeposit =>
          rw [htt] at hok
          simp only [Except.ok.injEq] at hok
          subst hok
          right
          exact ⟨d, rfl, Or.inr htt, _, List.mem_cons_self _ _, rfl⟩
        | Transfer =>
          rw [htt] at hok
          cases hacc : memo0.acc with
          | some a =>
            rw [hacc] at hok
            simp only [] at hok
            split at hok
            · simp only [Except.ok.injEq] at hok
              subst hok
              left
              exact ⟨_, List.mem_cons_self _ _, hidx0⟩
            · simp only [Except.ok.injEq] at hok
              subst hok
              left
              exact ⟨_, List.mem_cons_self _ _, hidx0⟩
          | none =>
            rw [hacc] at hok
            simp only [Except.ok.injEq] at hok
            subst hok
            left
            exact ⟨_, List.mem_cons_self _ _, hidx0⟩
        | Withdraw =>
          rw [htt] at hok
          simp only [Except.ok.injEq] at hok
          subst hok
          left
          exact ⟨_, List.mem_cons_self _ _, hidx0⟩
    | DirectDepositBatch =>
      cases det with
      | regular d => cases hok
      | dd d =>
        simp only [PoolTxDetails.details] at hok ⊢
        have hne : d.deposits ≠ [] := hdd d rfl
        cases hdep : d.deposits with
        | nil => exact absurd hdep hne
        | cons dep rest =>
          rw [hdep] at hok
          simp only [Except.ok.injEq] at hok
          subst hok
          left
          refine ⟨{ index := memo0.index + 0,
                    record := HistoryRecord.directDeposit
                      (if (dep.sender != "") = true then dep.sender else dep.fallback)
                      dep.destination dep.amount dep.fee d.timestamp d.txHash pending },
            ?_, by simpa using hidx0⟩
          exact List.mem_map.mpr ⟨(0, dep), List.mem_cons_self _ _, rfl⟩

end ZkBob

namespace ZkBob

/-- C1 (amended): under the stated correlation assumptions, every input
memo index of a `convertToHistory` pass ends in AT LEAST one of the
three outcomes — some produced record carries it, or it is returned in
`failIdxs`, or in `resyncIdxs`; no index is silently dropped.  (The
outcomes are not mutually exclusive: see the counterexample.) -/
theorem convertToHistory_no_silent_drops
    (env : Env) (st : HistoryStorage) (memos : List DecryptedMemo) (pending : Bool)
    (st' : HistoryStorage) (res : ConvResult)
    (hok : st.convertToHistory env memos pending = .ok (st', res))
    (hdd : ∀ tx ∈ (getTxesDetails env memos).details, ∀ d, tx.details = .dd d →
      d.deposits ≠ [])
    (hcorr : ∀ tx ∈ (getTxesDetails env memos).details, ∀ m1 ∈ memos, ∀ m2 ∈ memos,
      memoMatches m1 tx = true → memoMatches m2 tx = true → m1.index = m2.index)
    (hdep : ∀ tx ∈ (getTxesDetails env memos).details, ∀ d, tx.details = .regular d →
      (d.txType = .Deposit ∨ d.txType = .BridgeDeposit) →
      ∀ m2 ∈ memos, memoMatches m2 tx = true → m2.index = tx.index) :
    ∀ m ∈ memos, (∃ r ∈ res.records, r.index = m.index) ∨
      m.index ∈ res.failIdxs ∨ m.index ∈ res.resyncIdxs := by
  simp only [HistoryStorage.convertToHistory] at hok
  split at hok
  · cases hok
  · rename_i recs1 stm heqF
    split at hok
    · cases hok
    · rename_i allRecords fetchedV notFetchedV heqP
      simp only [Except.ok.injEq, Prod.mk.injEq] at hok
      obtain ⟨-, hres⟩ := hok
      subst hres
      intro m hm
      obtain ⟨haccN, hcovN⟩ :=
        processNotFetchedLoop_covers stm.sentTxs memos _ _ _ _ _ _ _ _ heqP
      obtain ⟨-, htxF⟩ := convertFetchedLoop_records env pending memos _ _ _ _ _ heqF
      by_cases hf : m.index ∈ (getTxesDetails env memos).fetched
      · rcases getTxesDetails_fetched_cases env memos m.index hf with hrs | ⟨tx, htx, hcase⟩
        · right
          right
          exact hrs
        · obtain ⟨recs, hrecs, hsub⟩ := htxF tx htx
          rcases hcase with hidx | ⟨m2, hm2, hm2i, hm2match⟩
          · have hmatch : memoMatches m tx = true := by
              unfold memoMatches
              rw [hidx]
              simp
            rcases convertTxDetailsRecords_covers env pending memos tx recs hrecs
                (hcorr tx htx) (hdd tx htx) m hm hmatch with
              ⟨r, hr, hre⟩ | ⟨d, hdet, hkind, r, hr, hre⟩
            · exact Or.inl ⟨r, haccN r (hsub r hr), hre⟩
            · exact Or.inl ⟨r, haccN r (hsub r hr), hre.trans hidx⟩
          · rcases convertTxDetailsRecords_covers env pending memos tx recs hrecs
                (hcorr tx htx) (hdd tx htx) m2 hm2 hm2match with
              ⟨r, hr, hre⟩ | ⟨d, hdet, hkind, r, hr, hre⟩
            · exact Or.inl ⟨r, haccN r (hsub r hr), hre.trans hm2i⟩
            · have h2 : m2.index = tx.index := hdep tx htx d hdet hkind m2 hm2 hm2match
              exact Or.inl ⟨r, haccN r (hsub r hr), hre.trans (h2.symm.trans hm2i)⟩
      · have hmem : m.index ∈ memos.map (fun m => m.index) := List.mem_map.mpr ⟨m, hm, rfl⟩
        have hnf : m.index ∈ (getTxesDetails env memos).notFetched := by
          apply List.mem_filter.mpr
          refine ⟨hmem, ?_⟩
          have hf2 : m.index ∉
              (fetchedPreRpc env memos ++ (resFromRpc env memos).map (fun tx => tx.index)) := hf
          simpa using hf2
        rcases hcovN m.index hnf with harr | ⟨r, hr, hre⟩
        · exact Or.inr (Or.inl harr)
        · exact Or.inl ⟨r, hr, hre⟩

end ZkBob

namespace ZkBob

/-- A one-entry direct-deposit batch detail. -/
def c1dd : DDBatchTxDetails :=
  { txHash := "0xdd", timestamp := 77
    deposits := [{ sender := "0xsnd", fallback := "0xfb", destination := "0xdst"
                   amount := 10, fee := 1 }] }

/-- The batch as a fetched pool transaction at index 0. -/
def c1tx : PoolTxDetails :=
  { poolTxType := .DirectDepositBatch, index := 0, details := .dd c1dd }

/-- The memo of that batch. -/
def c1memo : DecryptedMemo :=
  { index := 0, acc := none, inNotes := [], outNotes := [], txHash := some "0xdd" }

/-- An environment with a subgraph that misses the batch, so the RPC
fallback resolves it (the needs-resync tagging path). -/
def c1env : Env :=
  { subgraph := some (fun _ => [])
    getTxDetails := fun i h => if i == 0 && h == "0xdd" then some c1tx else none
    state := { assembleAddress := fun _ _ => "", isOwnAddress := fun _ => false } }

/-- The classification the pass produces for `c1memo`. -/
def c1res : ConvResult :=
  { records := [{ index := 0
                  record := HistoryRecord.directDeposit "0xsnd" "0xdst" 10 1 77 "0xdd" false }]
    succIdxs := [0], failIdxs := [], resyncIdxs := [0] }

/-- C1 counterexample: a direct-deposit batch fetched through the RPC
fallback while a subgraph is configured produces history records AND is
returned in `resyncIdxs` in the same pass, so its memo index ends in TWO
of the three outcomes, not exactly one. -/
theorem convertToHistory_exactly_one_counterexample :
    emptyStorage.convertToHistory c1env [c1memo] false = .ok (emptyStorage, c1res) ∧
      (∃ r ∈ c1res.records, r.index = 0) ∧ 0 ∈ c1res.resyncIdxs := by
  refine ⟨rfl, ⟨?_, ?_, ?_⟩, ?_⟩
  · exact { index := 0
            record := HistoryRecord.directDeposit "0xsnd" "0xdst" 10 1 77 "0xdd" false }
  · exact List.mem_cons_self _ _
  · rfl
  · exact List.mem_cons_self _ _

theorem convertToHistory_no_silent_drops_witness :
    (∃ r ∈ c1res.records, r.index = c1memo.index) ∨
      c1memo.index ∈ c1res.failIdxs ∨ c1memo.index ∈ c1res.resyncIdxs := by
  refine convertToHistory_no_silent_drops c1env emptyStorage [c1memo] false emptyStorage c1res
    rfl ?_ ?_ ?_ c1memo (List.mem_cons_self _ _)
  · intro tx htx d hd
    have he : tx = c1tx := List.mem_singleton.mp htx
    subst he
    injection hd with h
    subst h
    decide
  · intro tx htx m1 h1 m2 h2 hx1 hx2
    have e1 : m1 = c1memo := List.mem_singleton.mp h1
    have e2 : m2 = c1memo := List.mem_singleton.mp h2
    rw [e1, e2]
  · intro tx htx d hd hkind m2 hm2 hmatch
    have he : tx = c1tx := List.mem_singleton.mp htx
    subst he
    cases hd

end ZkBob
